import Mathlib

/-!
# HideVideo: the search ranking engine

A shallow embedding of `backend/utils/search.go` (keyword weights, title and
tag scores, `SearchRank`) together with the parts of the Go runtime it relies
on, followed by theorems about the embedded functions.

Modelling conventions.

* A Go `string` holding valid UTF-8 is the list of its runes (`List Char`).
  Byte offsets and byte lengths are recovered through `Char.utf8Size`.
* `unicode.ToLower` is a table of the Go standard library; it is taken as a
  parameter `lower : Char → Char`.
* A finite `float64` is a rational number and arithmetic on finite values is
  taken exact (no rounding, no overflow).  The only non-finite values that the
  ranking code can produce come out of `math.Log10`; they are kept explicit in
  `F64`.  The finite results of `math.Log10` are a parameter `log10 : ℚ → ℚ`.
* Go `int`, `int64` are `Int`, `uint` is `Nat`; no arithmetic in the embedded
  code can leave the 64-bit range.
* A Go `map` that is only read and written through `m[k]` is a total function
  returning the zero value on absent keys.
-/

namespace HideVideo

/-! ## Go runtime: time, strings, floats -/

/-- Go `time.Time` as the wall-clock instant it denotes: whole seconds since
the Unix epoch and the nanoseconds within that second. -/
structure Time where
  sec : Int := 0
  nsec : Nat := 0
deriving DecidableEq

/-- Go `Time.Unix`: the number of whole seconds since the epoch. -/
def Time.Unix (t : Time) : Int := t.sec

/-- Go `Time.After`: `t` is a later instant than `u`. -/
def Time.After (t u : Time) : Bool :=
  decide (t.sec > u.sec) || (decide (t.sec = u.sec) && decide (t.nsec > u.nsec))

/-- Go `unicode.IsSpace`: the Latin-1 space characters and the `White_Space`
code points above Latin-1. -/
def IsSpace (r : Char) : Bool :=
  let n := r.toNat
  n = 0x09 || n = 0x0A || n = 0x0B || n = 0x0C || n = 0x0D || n = 0x20 ||
  n = 0x85 || n = 0xA0 || n = 0x1680 || (0x2000 ≤ n && n ≤ 0x200A) ||
  n = 0x2028 || n = 0x2029 || n = 0x202F || n = 0x205F || n = 0x3000

/-- Scanning loop of `strings.Fields`: `cur` is the field being read, kept in
reverse. -/
def fieldsFrom (cur : List Char) : List Char → List (List Char)
  | [] => if cur.isEmpty then [] else [cur.reverse]
  | r :: rest =>
    if IsSpace r then
      if cur.isEmpty then fieldsFrom [] rest else cur.reverse :: fieldsFrom [] rest
    else fieldsFrom (r :: cur) rest

/-- Go `strings.Fields`: the maximal runs of non-space runes of `s`, in
order. -/
def Fields (s : List Char) : List (List Char) := fieldsFrom [] s

/-- Go `strings.ToLower` on valid UTF-8: every rune mapped through
`unicode.ToLower`. -/
def ToLower (lower : Char → Char) (s : List Char) : List Char := s.map lower

/-- Search loop of `strings.Index`; `off` is the byte offset of the position
being tried. -/
def indexFrom (substr : List Char) : Nat → List Char → Int
  | off, [] => if substr.isEmpty then (off : Int) else -1
  | off, r :: rest =>
    if substr.isPrefixOf (r :: rest) then (off : Int)
    else indexFrom substr (off + r.utf8Size) rest

/-- Go `strings.Index`: the byte offset of the first occurrence of `substr`
in `s`, or `-1`.  (In valid UTF-8 an occurrence of a valid string always
starts at a rune boundary.) -/
def Index (s substr : List Char) : Int := indexFrom substr 0 s

/-- Go `strings.Contains`. -/
def Contains (s substr : List Char) : Bool := decide (Index s substr ≥ 0)

/-- Go `len(s)`: the number of bytes of the UTF-8 encoding of `s`. -/
def byteLen (s : List Char) : Nat := (s.map Char.utf8Size).sum

/-- Search loop of `RuneIndex`. -/
def runeIndexFrom (substr : List Char) : Nat → List Char → Int
  | off, [] => if substr.isEmpty then (off : Int) else -1
  | off, r :: rest =>
    if substr.isPrefixOf (r :: rest) then (off : Int)
    else runeIndexFrom substr (off + 1) rest

/-- The character offset of the specification: the number of characters (runes) that
precede the first occurrence of `substr` in `s`, or `-1`.  It differs from
`Index` only in counting one per rune where `Index` counts the bytes of the
rune. -/
def RuneIndex (s substr : List Char) : Int := runeIndexFrom substr 0 s

/-- The `float64` values the ranking code can produce: finite values, and the
two special results of `math.Log10`. -/
inductive F64 where
  | fin (q : ℚ)
  | negInf
  | nan
deriving DecidableEq

/-- Addition of `float64` values (no `+Inf` arises, so `-Inf` absorbs every
finite value). -/
def F64.add : F64 → F64 → F64
  | .fin a, .fin b => .fin (a + b)
  | .nan, _ => .nan
  | _, .nan => .nan
  | _, _ => .negInf

/-- The `float64` comparison `a > b`; false whenever a NaN is involved. -/
def F64.gt : F64 → F64 → Bool
  | .fin a, .fin b => decide (a > b)
  | .fin _, .negInf => true
  | _, _ => false

/-- The `float64` comparison `a == b`; a NaN equals nothing. -/
def F64.eq : F64 → F64 → Bool
  | .fin a, .fin b => decide (a = b)
  | .negInf, .negInf => true
  | _, _ => false

/-- Go `math.Log10` on a finite argument: NaN below zero, `-Inf` at zero and
the finite value `log10 x` above. -/
def Log10 (log10 : ℚ → ℚ) (x : ℚ) : F64 :=
  if x < 0 then .nan else if x = 0 then .negInf else .fin (log10 x)

/-! ## Data model (`backend/models/models.go`, `backend/utils/search.go`) -/

/-- Record `models.Tag` (the back-reference `Videos` and `DeletedAt` left
out). -/
structure Tag where
  ID : Nat := 0
  Name : List Char := []
  SortOrder : Int := 0
  CreatedAt : Time := {}
deriving DecidableEq

/-- Record `models.Video`.  The association fields `Library`, `Actors`,
`Comments` and `DeletedAt`, which the ranking code never reads, are left
out. -/
structure Video where
  ID : Nat := 0
  LibraryID : Nat := 0
  Filename : List Char := []
  Filepath : List Char := []
  Duration : ℚ := 0
  Width : Int := 0
  Height : Int := 0
  Codec : List Char := []
  CreatedAt : Time := {}
  PlayCount : Int := 0
  Rating : ℚ := 0
  CoverPath : List Char := []
  IconPath : List Char := []
  Tags : List Tag := []
deriving DecidableEq

/-- Record `VideoWithTags`. -/
structure VideoWithTags where
  Video : Video
  TagNames : List (List Char) := []
deriving DecidableEq

/-- Record `SearchRankParams`. -/
structure SearchRankParams where
  Query : List Char
  VideoList : List VideoWithTags

/-- Record `KeywordInfo`. -/
structure KeywordInfo where
  Word : List Char
  Weight : ℚ
  IsCommon : Bool
  IsRare : Bool
deriving DecidableEq

/-- The local record `scoredVideo` of `SearchRank`. -/
structure scoredVideo where
  video : Video
  score : F64
  createdAt : Int
deriving DecidableEq

/-! ## `CalculateKeywordWeights` -/

/-- Assignment `m[k] = v` on a Go map. -/
def mapSet {β : Type} (m : List Char → β) (k : List Char) (v : β) : List Char → β :=
  fun k' => if k' = k then v else m k'

/-- The loop `for _, tag := range video.TagNames { tagsText += " " + ToLower(tag) }`. -/
def tagsText (lower : Char → Char) (tagNames : List (List Char)) : List Char :=
  tagNames.foldl (fun acc tag => acc ++ (' ' :: ToLower lower tag)) []

/-- One iteration of the inner loop over `words` in the counting pass: the
state is the pair `(wordCount, seen)`. -/
def countWord (lower : Char → Char) (titleLower tags : List Char)
    (st : (List Char → Int) × (List Char → Bool)) (word : List Char) :
    (List Char → Int) × (List Char → Bool) :=
  let wordLower := ToLower lower word
  if Contains titleLower wordLower || Contains tags wordLower then
    if !st.2 wordLower then
      (mapSet st.1 wordLower (st.1 wordLower + 1), mapSet st.2 wordLower true)
    else st
  else st

/-- One iteration of the loop over `videoList` in the counting pass. -/
def countVideo (lower : Char → Char) (words : List (List Char))
    (wordCount : List Char → Int) (video : VideoWithTags) : List Char → Int :=
  let titleLower := ToLower lower video.Video.Filename
  let tags := tagsText lower video.TagNames
  (words.foldl (countWord lower titleLower tags) (wordCount, fun _ => false)).1

/-- The counting pass: `wordCount` after the loop over `videoList`. -/
def countWords (lower : Char → Char) (words : List (List Char))
    (videoList : List VideoWithTags) : List Char → Int :=
  videoList.foldl (countVideo lower words) (fun _ => 0)

/-- Body of the weight loop for the word at index `i`. -/
def keywordAt (lower : Char → Char) (wordCount : List Char → Int) (totalVideos : Nat)
    (i : Nat) (word : List Char) : KeywordInfo :=
  let wordLower := ToLower lower word
  let frequency : ℚ := (wordCount wordLower : ℚ) / (totalVideos : ℚ)
  let weight : ℚ := if i = 0 then 1.2 else 1.0
  if totalVideos > 0 then
    if frequency > 0.2 then
      { Word := wordLower, Weight := weight * 0.8, IsCommon := true, IsRare := false }
    else if frequency < 0.05 ∧ frequency > 0 then
      { Word := wordLower, Weight := weight * 1.5, IsCommon := false, IsRare := true }
    else
      { Word := wordLower, Weight := weight, IsCommon := false, IsRare := false }
  else
    { Word := wordLower, Weight := weight, IsCommon := false, IsRare := false }

/-- Function `CalculateKeywordWeights`.  The result `nil` is the empty list:
every non-nil slice the function returns has at least one element. -/
def CalculateKeywordWeights (lower : Char → Char) (query : List Char)
    (videoList : List VideoWithTags) : List KeywordInfo :=
  let words := Fields query
  if words.length = 0 then []
  else
    let wordCount := countWords lower words videoList
    let totalVideos := videoList.length
    words.mapIdx (fun i word => keywordAt lower wordCount totalVideos i word)

/-- The presence test of the counting pass for one video: the word occurs in
the lowercased filename or in the lowercased tag text. -/
def present (lower : Char → Char) (wordLower : List Char) (video : VideoWithTags) : Bool :=
  Contains (ToLower lower video.Video.Filename) wordLower ||
    Contains (tagsText lower video.TagNames) wordLower

/-- The document frequency as the specification states it: the number of candidates
that pass the presence test, each counted once, over the number of
candidates. -/
def docFrequency (lower : Char → Char) (wordLower : List Char)
    (videoList : List VideoWithTags) : ℚ :=
  (videoList.countP (present lower wordLower) : ℚ) / (videoList.length : ℚ)

/-! ## `CalculateTitleScore`, `CalculateTagScore` -/

/-- Function `CalculateTitleScore`. -/
def CalculateTitleScore (lower : Char → Char) (title : List Char) (keyword : KeywordInfo) :
    ℚ × Bool :=
  let titleLower := ToLower lower title
  if !Contains titleLower keyword.Word then (0, false)
  else
    let score : ℚ := 10.0 * keyword.Weight
    let idx := Index titleLower keyword.Word
    let position : ℚ := (idx : ℚ)
    let decayFactor : ℚ := 1.0 - 0.05 * ((Rat.floor (position / 10.0) : Int) : ℚ)
    let decayFactor := if decayFactor < 0.5 then 0.5 else decayFactor
    let score := score * decayFactor
    let score := if position < 10 then score * 1.1 else score
    (score, true)

/-- Function `CalculateTagScore`. -/
def CalculateTagScore (lower : Char → Char) :
    List (List Char) → KeywordInfo → ℚ
  | [], _ => 0
  | tag :: rest, keyword =>
    if Contains (ToLower lower tag) keyword.Word then 5.0 * keyword.Weight
    else CalculateTagScore lower rest keyword

/-! ## `SearchRank` -/

/-- Body of the loop over `keywords` for one video: the new `baseScore`.  (The
maps `titleMatched` and `tagMatched` are written but never read.) -/
def addKeyword (lower : Char → Char) (video : VideoWithTags) (baseScore : ℚ)
    (kw : KeywordInfo) : ℚ :=
  let r := CalculateTitleScore lower video.Video.Filename kw
  let titleScore := r.1
  let titleHit := r.2
  let baseScore := if titleHit then baseScore + titleScore else baseScore
  let tagScore := CalculateTagScore lower video.TagNames kw
  let baseScore := if tagScore > 0 then baseScore + tagScore else baseScore
  if titleHit ∧ tagScore > 0 then baseScore + 3.0 * kw.Weight else baseScore

/-- Body of the scoring loop: the `scoredVideo` stored for one candidate. -/
def scoreVideo (lower : Char → Char) (log10 : ℚ → ℚ) (keywords : List KeywordInfo)
    (video : VideoWithTags) : scoredVideo :=
  let baseScore : ℚ := keywords.foldl (addKeyword lower video) 0.0
  let playCountBonus := Log10 log10 ((video.Video.PlayCount : ℚ) + 1)
  let finalScore := F64.add (.fin baseScore) playCountBonus
  { video := video.Video, score := finalScore, createdAt := video.Video.CreatedAt.Unix }

/-- The swap condition of the sort: `sj` is at index `j`, `si` at index `i`. -/
def swapCond (sj si : scoredVideo) : Bool :=
  F64.gt sj.score si.score || (F64.eq sj.score si.score && decide (sj.createdAt > si.createdAt))

/-- Body of the inner sort loop at indices `i`, `j`. -/
def sortStep (i : Nat) (a : List scoredVideo) (j : Nat) : List scoredVideo :=
  match a[i]?, a[j]? with
  | some si, some sj => if swapCond sj si then (a.set i sj).set j si else a
  | _, _ => a

/-- The inner sort loop `for j := i + 1; j < len(scoredVideos); j++`. -/
def sortInner (a : List scoredVideo) (i : Nat) : List scoredVideo :=
  (List.range' (i + 1) (a.length - (i + 1))).foldl (sortStep i) a

/-- The sort of `SearchRank`: `for i := 0; i < len(scoredVideos)-1; i++`. -/
def sortScored (a : List scoredVideo) : List scoredVideo :=
  (List.range (a.length - 1)).foldl sortInner a

/-- The array `scoredVideos` of `SearchRank` after the sort (on the path that
scores). -/
def rankedVideos (lower : Char → Char) (log10 : ℚ → ℚ) (params : SearchRankParams) :
    List scoredVideo :=
  let keywords := CalculateKeywordWeights lower params.Query params.VideoList
  sortScored (params.VideoList.map (scoreVideo lower log10 keywords))

/-- Function `SearchRank`. -/
def SearchRank (lower : Char → Char) (log10 : ℚ → ℚ) (params : SearchRankParams) :
    List Video :=
  if params.Query = [] ∨ params.VideoList.length = 0 then
    params.VideoList.map (fun v => v.Video)
  else
    let keywords := CalculateKeywordWeights lower params.Query params.VideoList
    if keywords.isEmpty then
      params.VideoList.map (fun v => v.Video)
    else
      (rankedVideos lower log10 params).map (fun sv => sv.video)

/-- What one keyword adds to `baseScore` for one video, in the words of the
specification: the title score, plus the tag score, plus the double-hit bonus
`3.0 * weight` when the keyword hits both the filename and a tag. -/
def keywordContribution (lower : Char → Char) (video : VideoWithTags) (kw : KeywordInfo) : ℚ :=
  (CalculateTitleScore lower video.Video.Filename kw).1 +
    CalculateTagScore lower video.TagNames kw +
    (if Contains (ToLower lower video.Video.Filename) kw.Word = true ∧
        (∃ tag ∈ video.TagNames, Contains (ToLower lower tag) kw.Word = true)
      then 3.0 * kw.Weight else 0)

/-! ## `GetVideos` (`backend/handlers/video.go`) -/

/-- Go `int` arithmetic (64 bits): the two's complement value to which an exact
result wraps. -/
def wrapInt64 (x : Int) : Int := (x + 2 ^ 63) % 2 ^ 64 - 2 ^ 63

/-- Go slice expression `s[low:high]` on a slice whose capacity is its length;
`none` is the run-time panic "slice bounds out of range". -/
def sliceRange {α : Type} (s : List α) (low high : Int) : Option (List α) :=
  if 0 ≤ low ∧ low ≤ high ∧ high ≤ (s.length : Int) then
    some ((s.drop low.toNat).take (high.toNat - low.toNat))
  else none

/-- The paging block of `GetVideos` (the same on the ranked and on the
eager-load path): `offset`, `endIdx`, the clamp of `endIdx` and the slice. -/
def pageWindow {α : Type} (page pageSize : Int) (sorted : List α) : Option (List α) :=
  let offset := wrapInt64 (wrapInt64 (page - 1) * pageSize)
  let endIdx := wrapInt64 (offset + pageSize)
  let endIdx := if endIdx > (sorted.length : Int) then (sorted.length : Int) else endIdx
  if offset < (sorted.length : Int) then sliceRange sorted offset endIdx
  else some []

/-- Record `VideoQueryParams`. -/
structure VideoQueryParams where
  Page : Int := 0
  PageSize : Int := 0
  LibraryIDs : List Nat := []
  TagIDs : List Nat := []
  SortBy : List Char := []
  Order : List Char := []
  Keyword : List Char := []
  RandomSeed : Int := 0
  FolderPath : List Char := []
deriving DecidableEq

/-- The flag `useSmartRank` of `GetVideos`. -/
def useSmartRank (params : VideoQueryParams) : Bool :=
  decide (params.Keyword ≠ []) && decide (params.SortBy = "created_at".toList) &&
    decide (params.Order = "desc".toList)

/-- The flag `loadTagsForSearch` of `GetVideos`. -/
def loadTagsForSearch (params : VideoQueryParams) : Bool :=
  decide (params.TagIDs.length > 0) && decide (params.Keyword = [])

/-- The three branches of `GetVideos` after the query is built. -/
inductive ExecPath where
  | ranked
  | eagerLoad
  | direct
deriving DecidableEq

/-- The branch `GetVideos` takes:
`if useSmartRank || loadTagsForSearch { if useSmartRank {..} else {..} } else {..}`. -/
def selectPath (params : VideoQueryParams) : ExecPath :=
  if useSmartRank params || loadTagsForSearch params then
    if useSmartRank params then .ranked else .eagerLoad
  else .direct

/-- The value of a string of decimal digits read from the left, `acc` being
the value read so far; `none` if a rune is not a decimal digit. -/
def digitsFrom (acc : Nat) : List Char → Option Nat
  | [] => some acc
  | c :: rest =>
    if '0' ≤ c ∧ c ≤ '9' then digitsFrom (acc * 10 + (c.toNat - '0'.toNat)) rest
    else none

/-- Go `strconv.Atoi`: an optional sign and at least one decimal digit, the
value within the range of `int`; `none` is a non-nil error. -/
def Atoi (s : List Char) : Option Int :=
  match s with
  | [] => none
  | c :: rest =>
    let neg := decide (c = '-')
    let digits := if c = '-' ∨ c = '+' then rest else s
    if digits.isEmpty then none
    else
      match digitsFrom 0 digits with
      | none => none
      | some n =>
        let v : Int := if neg then -(n : Int) else (n : Int)
        if -2 ^ 63 ≤ v ∧ v ≤ 2 ^ 63 - 1 then some v else none

/-- Go `strconv.ParseUint(s, 10, 32)`: the value and whether the error is
nil.  A syntax error returns the value 0, a range error the value
`2^32 - 1`. -/
def ParseUint32 (s : List Char) : Nat × Bool :=
  if s.isEmpty then (0, false)
  else
    match digitsFrom 0 s with
    | none => (0, false)
    | some n => if n ≤ 2 ^ 32 - 1 then (n, true) else (2 ^ 32 - 1, false)

/-- Go `strings.Split(s, ",")`. -/
def splitComma : List Char → List (List Char)
  | [] => [[]]
  | c :: rest =>
    if c = ',' then [] :: splitComma rest
    else
      match splitComma rest with
      | [] => [[c]]
      | first :: more => (c :: first) :: more

/-- The loop that reads `library_ids` and `tag_ids`: the elements of the
comma-separated list that `ParseUint` accepts. -/
def parseIDs (s : List Char) : List Nat :=
  (splitComma s).filterMap (fun id =>
    let r := ParseUint32 id
    if r.2 then some r.1 else none)

/-- The parameter block of `GetVideos`: `query key` is `c.Query(key)`, the
empty string when the request has no such parameter.  The field `RandomSeed`
is not assigned anywhere in `GetVideos`; it keeps its zero value. -/
def parseVideoQuery (query : List Char → List Char) : VideoQueryParams :=
  let page : Int :=
    match Atoi (query "page".toList) with
    | some page => if page > 0 then page else 1
    | none => 1
  let pageSize : Int :=
    match Atoi (query "page_size".toList) with
    | some pageSize => if pageSize > 0 then pageSize else 20
    | none => 20
  let sortBy := if query "sort_by".toList ≠ [] then query "sort_by".toList
    else "created_at".toList
  let order := if query "order".toList ≠ [] then query "order".toList else "desc".toList
  let libraryIDs := if query "library_ids".toList ≠ [] then
    parseIDs (query "library_ids".toList) else []
  let tagIDs := if query "tag_ids".toList ≠ [] then parseIDs (query "tag_ids".toList) else []
  { Page := page, PageSize := pageSize, LibraryIDs := libraryIDs, TagIDs := tagIDs,
    SortBy := sortBy, Order := order, Keyword := query "keyword".toList,
    RandomSeed := 0, FolderPath := query "folder_path".toList }

/-- The exchange `l[i], l[j] = l[j], l[i]`. -/
def swapIdx {α : Type} (l : List α) (i j : Nat) : List α :=
  match l[i]?, l[j]? with
  | some a, some b => (l.set i b).set j a
  | _, _ => l

/-- The loop of the branch without seed:
`for i := len - 1; i > 0; i-- { j := int64(i) % int64(i+1); swap(i, j) }`. -/
def noSeedShuffle {α : Type} (l : List α) : List α :=
  (List.range' 1 (l.length - 1)).reverse.foldl (fun l i => swapIdx l i (i % (i + 1))) l

/-- The ordering block of the eager-load path.  `shuffle seed l` stands for
`rand.New(rand.NewSource(seed)).Shuffle` run on `l`, and `dbOrder orderStr`
for `query.Order(orderStr).Find`. -/
def eagerLoadOrder (shuffle : Int → List Video → List Video)
    (dbOrder : List Char → List Video) (params : VideoQueryParams)
    (allVideos : List Video) : List Video :=
  let orderStr := if params.SortBy = "random".toList then "RANDOM()".toList
    else params.SortBy ++ " ".toList ++ params.Order
  if orderStr = "RANDOM()".toList then
    if params.RandomSeed > 0 then shuffle params.RandomSeed allVideos
    else noSeedShuffle allVideos
  else dbOrder orderStr

/-! ## `GetVideos`: the keyword filter -/

/-- How `GetVideos` narrows the candidate set by the keyword: not at all, by
`id = ?`, or by one `filename LIKE ? OR id IN (tag subquery)` clause per
keyword. -/
inductive KeywordFilter where
  | noFilter
  | byID (id : Nat)
  | bySubstring (keywords : List (List Char))
deriving DecidableEq

/-- The keyword block of `GetVideos`.  The error of `strconv.ParseUint` is
discarded (`idVal, _ :=`). -/
def keywordFilter (keyword : List Char) : KeywordFilter :=
  if keyword ≠ [] then
    let keywords := Fields keyword
    let idVal := (ParseUint32 keyword).1
    if keywords.length = 1 ∧ idVal > 0 then .byID idVal
    else .bySubstring keywords
  else .noFilter

/-- The number a string of decimal digits denotes. -/
def decimalValue (s : List Char) : Nat :=
  s.foldl (fun n c => n * 10 + (c.toNat - '0'.toNat)) 0

/-! ## `ListLibraryFiles` (`handlers/filemanager.go`) -/

/-- The path check of `ListLibraryFiles`: `true` when the request is not
rejected as an invalid path.  `abs` is `filepath.Abs`.  The comparison
`absRequestPath[:len(absLibraryPath)] != absLibraryPath` is evaluated only when
the request path is at least as long, and is then the negation of "the library
path is a prefix of the request path". -/
def pathCheckPasses (abs : List Char → List Char) (libraryPath path : List Char) : Bool :=
  let absLibraryPath := abs libraryPath
  let absRequestPath := abs path
  !(decide (byteLen absRequestPath < byteLen absLibraryPath) ||
    !(absLibraryPath.isPrefixOf absRequestPath))

/-- A cleaned absolute path `p` is the directory `dir` itself or lies inside
it: it is `dir` or starts with `dir` followed by the separator. -/
def insideDir (dir p : List Char) : Bool :=
  decide (p = dir) || (dir ++ ['/']).isPrefixOf p

/-! ## `recordLoginFailure` (`handlers/auth.go`) -/

/-- Record `LoginAttempt`. -/
structure LoginAttempt where
  Count : Int
  FirstFail : Time
  LastFail : Time
deriving DecidableEq

/-- Go `Time.Sub`: the duration `t - u` in nanoseconds. -/
def Time.Sub (t u : Time) : Int :=
  (t.sec - u.sec) * 1000000000 + ((t.nsec : Int) - (u.nsec : Int))

/-- The duration `30 * time.Minute` in nanoseconds. -/
def thirtyMinutes : Int := 30 * 60 * 1000000000

/-- Function `recordLoginFailure` on the table `loginAttempts`.  `now k` is the
value of the `k`-th call of `time.Now()` during the call (`time.Since` makes
one).  `Count` is far from the end of the `int` range. -/
def recordLoginFailure (loginAttempts : List Char → Option LoginAttempt) (ip : List Char)
    (now : Nat → Time) : List Char → Option LoginAttempt :=
  match loginAttempts ip with
  | none =>
    mapSet loginAttempts ip (some { Count := 1, FirstFail := now 0, LastFail := now 1 })
  | some attempt =>
    if Time.Sub (now 0) attempt.LastFail > thirtyMinutes then
      mapSet loginAttempts ip (some { Count := 1, FirstFail := now 1, LastFail := now 2 })
    else
      mapSet loginAttempts ip
        (some { Count := attempt.Count + 1, FirstFail := attempt.FirstFail, LastFail := now 1 })

/-! ## The `NoRoute` handler (`main.go`) -/

/-- The bytes of a Go string. -/
def utf8Bytes (s : List Char) : List UInt8 := s.flatMap String.utf8EncodeChar

/-- Go slice expression `s[:n]` on a string; `none` is the run-time panic
"slice bounds out of range". -/
def sliceTo (b : List UInt8) (n : Nat) : Option (List UInt8) :=
  if n ≤ b.length then some (b.take n) else none

/-- The two outcomes of the `NoRoute` handler. -/
inductive RouteClass where
  | staticAsset
  | spaFallback
deriving DecidableEq

/-- The test of the `NoRoute` handler,
`len(path) > 1 && (path[:7] == "/assets" || path[:8] == "/static" || path == "/favicon.svg")`,
evaluated from left to right; `none` is a run-time panic. -/
def noRouteClass (path : List Char) : Option RouteClass :=
  if (utf8Bytes path).length > 1 then
    match sliceTo (utf8Bytes path) 7 with
    | none => none
    | some p7 =>
      if p7 = utf8Bytes "/assets".toList then some .staticAsset
      else
        match sliceTo (utf8Bytes path) 8 with
        | none => none
        | some p8 =>
          if p8 = utf8Bytes "/static".toList then some .staticAsset
          else if path = "/favicon.svg".toList then some .staticAsset
          else some .spaFallback
  else some .spaFallback

/-! ## `GetVideosInFolder` (`handlers/folder.go`) -/

/-- Function `parseInt`. -/
def parseInt (s : List Char) : Int :=
  s.foldl (fun n c =>
    if '0' ≤ c ∧ c ≤ '9' then wrapInt64 (n * 10 + ((c.toNat : Int) - ('0'.toNat : Int)))
    else n) 0

/-- The computation of `total_pages` in `GetVideosInFolder`:
`(int(total) + parseInt(pageSize) - 1) / parseInt(pageSize)`; `none` is the
run-time panic "integer divide by zero". -/
def totalPages (total : Int) (pageSize : List Char) : Option Int :=
  if parseInt pageSize = 0 then none
  else some (wrapInt64
    ((wrapInt64 (wrapInt64 (total + parseInt pageSize) - 1)).tdiv (parseInt pageSize)))

/-! ## Invariants of the sort loops -/

/-- The indices below `i` hold the same elements in `a` and `b`. -/
def HeadKept (i : Nat) (a b : List scoredVideo) : Prop :=
  ∀ k, k < i → b[k]? = a[k]?

/-- Every element of `b` at an index from `i` on sits at such an index in `a`. -/
def TailFrom (i : Nat) (a b : List scoredVideo) : Prop :=
  ∀ q y, i ≤ q → b[q]? = some y → ∃ q', i ≤ q' ∧ a[q']? = some y

/-- No element strictly between `i` and `j` has to go before the element at `i`. -/
def Dominates (i j : Nat) (a : List scoredVideo) : Prop :=
  ∀ k x y, i < k → k < j → a[k]? = some x → a[i]? = some y → swapCond x y = false

/-- The indices below `i` are final: nothing after one of them has to go
before it. -/
def SortedBelow (i : Nat) (a : List scoredVideo) : Prop :=
  ∀ p q x y, p < i → p < q → a[p]? = some x → a[q]? = some y → swapCond y x = false

/-! ## Concrete inputs -/

/-- A stand-in for `math.Log10` on positive arguments, used to evaluate the
functions on concrete inputs: the chord of the logarithm through its values at
`1` and `10` (strictly increasing, `0` at `1`, `1` at `10`). -/
def log10Chord (x : ℚ) : ℚ := (x - 1) / 9

/-- The two candidates "Beach Sunset" and "Sunset over Beach" with the query
"sunset". -/
def sunsetParams : SearchRankParams :=
  { Query := "sunset".toList
    VideoList :=
      [ { Video := { ID := 1, Filename := "Beach Sunset".toList, CreatedAt := { sec := 200 } } },
        { Video := { ID := 2, Filename := "Sunset over Beach".toList, PlayCount := 100,
                     CreatedAt := { sec := 100 } },
          TagNames := ["nature".toList] } ] }

/-- Two candidates created within the same second (half a second apart), with
a query that matches neither. -/
def sameSecondParams : SearchRankParams :=
  { Query := "x".toList
    VideoList :=
      [ { Video := { ID := 1, Filename := "a".toList, CreatedAt := { sec := 100, nsec := 0 } } },
        { Video := { ID := 2, Filename := "b".toList,
                     CreatedAt := { sec := 100, nsec := 500000000 } } } ] }

/-- Two candidates created a hundred seconds apart, with a query that matches
neither. -/
def laterSecondParams : SearchRankParams :=
  { Query := "x".toList
    VideoList :=
      [ { Video := { ID := 1, Filename := "a".toList, CreatedAt := { sec := 100 } } },
        { Video := { ID := 2, Filename := "b".toList, CreatedAt := { sec := 200 } } } ] }

/-- A video "Beach Sunset" played three times, with a tag that contains
"sunset". -/
def taggedSunset : VideoWithTags :=
  { Video := { ID := 1, Filename := "Beach Sunset".toList, PlayCount := 3 },
    TagNames := ["Sunsets".toList] }

/-- The same filename and play count, with no tag that contains "sunset". -/
def untaggedSunset : VideoWithTags :=
  { Video := { ID := 2, Filename := "Beach Sunset".toList, PlayCount := 3 },
    TagNames := ["nature".toList] }

/-- Twenty candidates of which exactly one (5%) contains "sunset". -/
def rareSunsetList : List VideoWithTags :=
  { Video := { ID := 1, Filename := "Beach Sunset".toList } } ::
    List.replicate 19 { Video := { ID := 2, Filename := "clip".toList } }

/-- A video named "cat" without tags. -/
def catVideo : VideoWithTags := { Video := { ID := 1, Filename := "cat".toList } }

/-- The first candidate of the sunset scenario: id 1, "Beach Sunset", no
tags, never played, created at `t1`. -/
def sunsetVideo1 (t1 : Time) : VideoWithTags :=
  { Video := { ID := 1, Filename := "Beach Sunset".toList, PlayCount := 0, CreatedAt := t1 } }

/-- The second candidate of the sunset scenario: id 2, "Sunset over Beach",
tag "nature", played 100 times, created at `t0`. -/
def sunsetVideo2 (t0 : Time) : VideoWithTags :=
  { Video := { ID := 2, Filename := "Sunset over Beach".toList, PlayCount := 100,
               CreatedAt := t0 },
    TagNames := ["nature".toList] }

/-- The sunset scenario: the two candidates, in this order, and the query
"sunset". -/
def sunsetScenario (t0 t1 : Time) : SearchRankParams :=
  { Query := "sunset".toList, VideoList := [sunsetVideo1 t1, sunsetVideo2 t0] }

/-- A request with `tag_ids=1`, `sort_by=random` and `random_seed=42`. -/
def seededRequest (key : List Char) : List Char :=
  if key = "tag_ids".toList then "1".toList
  else if key = "sort_by".toList then "random".toList
  else if key = "random_seed".toList then "42".toList
  else []

/-- Three candidates created at the same instant and never played: "a" and
"b", which the query "x" does not match, followed by "x", which it matches. -/
def unstableParams : SearchRankParams :=
  { Query := "x".toList
    VideoList :=
      [ { Video := { ID := 1, Filename := "a".toList } },
        { Video := { ID := 2, Filename := "b".toList } },
        { Video := { ID := 3, Filename := "x".toList } } ] }

/-! ## The sort: the swap condition is a strict order -/

theorem swapCond_trans {a b c : scoredVideo} (h₁ : swapCond a b = true)
    (h₂ : swapCond b c = true) : swapCond a c = true := by
  obtain ⟨va, sa, ta⟩ := a
  obtain ⟨vb, sb, tb⟩ := b
  obtain ⟨vc, sc, tc⟩ := c
  cases sa <;> cases sb <;> cases sc <;>
    simp only [swapCond, F64.gt, F64.eq, Bool.or_eq_true, Bool.and_eq_true,
      decide_eq_true_eq, Bool.false_eq_true, false_and, or_false, true_or, and_false,
      true_and, false_or] at h₁ h₂ ⊢
  · rcases h₁ with h₁ | ⟨h₁, h₁'⟩ <;> rcases h₂ with h₂ | ⟨h₂, h₂'⟩
    · exact Or.inl (lt_trans h₂ h₁)
    · exact Or.inl (h₂ ▸ h₁)
    · exact Or.inl (h₁ ▸ h₂)
    · exact Or.inr ⟨h₁.trans h₂, lt_trans h₂' h₁'⟩
  · exact lt_trans h₂ h₁

theorem swapCond_asymm {a b : scoredVideo} (h : swapCond a b = true) :
    swapCond b a = false := by
  obtain ⟨va, sa, ta⟩ := a
  obtain ⟨vb, sb, tb⟩ := b
  cases sa <;> cases sb <;>
    simp only [swapCond, F64.gt, F64.eq, Bool.or_eq_true, Bool.and_eq_true,
      decide_eq_true_eq, Bool.false_eq_true, false_and, or_false, true_or, and_false,
      Bool.or_eq_false_iff, Bool.and_eq_false_imp, decide_eq_false_iff_not,
      Bool.or_false, Bool.false_and, Bool.or_self, Bool.true_or, Bool.true_and,
      true_and, false_or] at h ⊢
  · rcases h with h | ⟨h, h'⟩
    · exact ⟨not_lt.mpr h.le, fun e => absurd h (e ▸ lt_irrefl _)⟩
    · exact ⟨h ▸ lt_irrefl _, fun _ => not_lt.mpr h'.le⟩
  · exact not_lt.mpr h.le

/-! ## The sort: one step -/

theorem cons_set_perm {α : Type} (h x : α) :
    ∀ (t : List α) (k : Nat), t[k]? = some x → (x :: t.set k h).Perm (h :: t)
  | [], k, hk => by simp at hk
  | c :: t, 0, hk => by
    simp only [List.getElem?_cons_zero, Option.some.injEq] at hk
    subst hk
    simpa using List.Perm.swap h c t
  | c :: t, k + 1, hk => by
    simp only [List.getElem?_cons_succ] at hk
    have ih := cons_set_perm h x t k hk
    simp only [List.set_cons_succ]
    exact ((List.Perm.swap c x _).trans (ih.cons c)).trans (List.Perm.swap h c t)

theorem set_set_perm {α : Type} :
    ∀ (a : List α) (i j : Nat) (x y : α), a[i]? = some x → a[j]? = some y →
      ((a.set i y).set j x).Perm a
  | [], i, j, x, y, hi, _ => by simp at hi
  | c :: t, 0, 0, x, y, hi, hj => by
    simp only [List.getElem?_cons_zero, Option.some.injEq] at hi hj
    subst hi
    simp
  | c :: t, 0, j + 1, x, y, hi, hj => by
    simp only [List.getElem?_cons_zero, Option.some.injEq, List.getElem?_cons_succ] at hi hj
    subst hi
    simpa using cons_set_perm c y t j hj
  | c :: t, i + 1, 0, x, y, hi, hj => by
    simp only [List.getElem?_cons_zero, Option.some.injEq, List.getElem?_cons_succ] at hi hj
    subst hj
    simpa using cons_set_perm c x t i hi
  | c :: t, i + 1, j + 1, x, y, hi, hj => by
    simp only [List.getElem?_cons_succ] at hi hj
    simpa using (set_set_perm t i j x y hi hj).cons c

theorem sortStep_length (i : Nat) (a : List scoredVideo) (j : Nat) :
    (sortStep i a j).length = a.length := by
  unfold sortStep
  split
  · split <;> simp
  · rfl

theorem sortStep_perm (i : Nat) (a : List scoredVideo) (j : Nat) :
    (sortStep i a j).Perm a := by
  unfold sortStep
  split
  · next si sj hi hj =>
    split
    · exact set_set_perm a i j si sj hi hj
    · exact List.Perm.refl a
  · exact List.Perm.refl a

/-- Step `(i, j)` leaves every index other than `i` and `j` alone. -/
theorem sortStep_getElem?_ne (i : Nat) (a : List scoredVideo) (j k : Nat)
    (hki : k ≠ i) (hkj : k ≠ j) : (sortStep i a j)[k]? = a[k]? := by
  unfold sortStep
  split
  · split
    · rw [List.getElem?_set_ne (Ne.symm hkj), List.getElem?_set_ne (Ne.symm hki)]
    · rfl
  · rfl

/-- After step `(i, j)` the element at `j` does not have to go before the
element at `i`, and the element at `i` is the old one or one that had to go
before it. -/
theorem sortStep_at (i : Nat) (a : List scoredVideo) (j : Nat) (hij : i < j)
    (si sj : scoredVideo) (hi : a[i]? = some si) (hj : a[j]? = some sj) :
    (swapCond sj si = true ∧ (sortStep i a j)[i]? = some sj ∧ (sortStep i a j)[j]? = some si) ∨
    (swapCond sj si = false ∧ (sortStep i a j)[i]? = some si ∧
      (sortStep i a j)[j]? = some sj) := by
  have hil : i < a.length := (List.getElem?_eq_some.mp hi).1
  have hjl : j < a.length := (List.getElem?_eq_some.mp hj).1
  unfold sortStep
  rw [hi, hj]
  by_cases hc : swapCond sj si = true
  · left
    refine ⟨hc, ?_, ?_⟩
    · simp only [hc, if_true]
      rw [List.getElem?_set_ne (by omega), List.getElem?_set_self hil]
    · simp only [hc, if_true]
      rw [List.getElem?_set_self (by simpa using hjl)]
  · right
    have hc' : swapCond sj si = false := by simpa using hc
    exact ⟨hc', by simp [hc', hi], by simp [hc', hj]⟩

/-! ## The sort: loop invariants -/

theorem sortStep_eq_self (i : Nat) (a : List scoredVideo) (j : Nat)
    (h : a[i]? = none ∨ a[j]? = none) : sortStep i a j = a := by
  unfold sortStep
  split
  · next si sj hi hj => rcases h with h | h <;> simp_all
  · rfl

theorem sortStep_cases (i : Nat) (a : List scoredVideo) (j : Nat) (hij : i < j) :
    sortStep i a j = a ∨
    ∃ si sj, a[i]? = some si ∧ a[j]? = some sj ∧ swapCond sj si = true ∧
      (sortStep i a j)[i]? = some sj ∧ (sortStep i a j)[j]? = some si := by
  cases hi : a[i]? with
  | none => exact Or.inl (sortStep_eq_self i a j (Or.inl hi))
  | some si =>
    cases hj : a[j]? with
    | none => exact Or.inl (sortStep_eq_self i a j (Or.inr hj))
    | some sj =>
      rcases sortStep_at i a j hij si sj hi hj with ⟨hc, h1, h2⟩ | ⟨hc, _, _⟩
      · exact Or.inr ⟨si, sj, rfl, rfl, hc, h1, h2⟩
      · left
        unfold sortStep
        simp [hi, hj, hc]

theorem sortStep_tail (i : Nat) (a : List scoredVideo) (j : Nat) (hij : i < j) :
    TailFrom i a (sortStep i a j) := by
  intro q y hq hy
  rcases sortStep_cases i a j hij with h | ⟨si, sj, hi, hj, _, h1, h2⟩
  · rw [h] at hy
    exact ⟨q, hq, hy⟩
  · by_cases hqi : q = i
    · subst hqi
      rw [h1] at hy
      exact ⟨j, by omega, by rw [hj, hy]⟩
    · by_cases hqj : q = j
      · subst hqj
        rw [h2] at hy
        exact ⟨i, le_refl i, by rw [hi, hy]⟩
      · rw [sortStep_getElem?_ne i a j q hqi hqj] at hy
        exact ⟨q, hq, hy⟩

theorem sortStep_dominates (i : Nat) (a : List scoredVideo) (j : Nat) (hij : i < j)
    (hd : Dominates i j a) : Dominates i (j + 1) (sortStep i a j) := by
  intro k x y hik hkj hx hy
  by_cases hkj' : k = j
  · subst hkj'
    cases hi : a[i]? with
    | none => rw [sortStep_eq_self i a k (Or.inl hi)] at hy; simp [hi] at hy
    | some si =>
      cases hj : a[k]? with
      | none => rw [sortStep_eq_self i a k (Or.inr hj)] at hx; simp [hj] at hx
      | some sj =>
        rcases sortStep_at i a k hij si sj hi hj with ⟨hc, h1, h2⟩ | ⟨hc, h1, h2⟩
        · rw [h1] at hy
          rw [h2] at hx
          cases hx
          cases hy
          exact swapCond_asymm hc
        · rw [h1] at hy
          rw [h2] at hx
          cases hx
          cases hy
          exact hc
  · have hk : k < j := by omega
    rw [sortStep_getElem?_ne i a j k (by omega) hkj'] at hx
    rcases sortStep_cases i a j hij with h | ⟨si, sj, hi, hj, hc, h1, _⟩
    · rw [h] at hy
      exact hd k x y hik hk hx hy
    · rw [h1] at hy
      cases hy
      have hxs : swapCond x si = false := hd k x si hik hk hx hi
      cases hxy : swapCond x y with
      | false => rfl
      | true => rw [swapCond_trans hxy hc] at hxs; cases hxs

/-- The inner loop run from `j` for `m` iterations. -/
theorem sortLoop_inv (i : Nat) :
    ∀ (m j : Nat) (a : List scoredVideo), i < j → Dominates i j a →
      ((List.range' j m).foldl (sortStep i) a).length = a.length ∧
      ((List.range' j m).foldl (sortStep i) a).Perm a ∧
      HeadKept i a ((List.range' j m).foldl (sortStep i) a) ∧
      TailFrom i a ((List.range' j m).foldl (sortStep i) a) ∧
      Dominates i (j + m) ((List.range' j m).foldl (sortStep i) a)
  | 0, j, a, _, hd => by
    simp only [List.range'_zero, List.foldl_nil, Nat.add_zero]
    exact ⟨trivial, List.Perm.refl a, fun _ _ => rfl, fun q y hq hy => ⟨q, hq, hy⟩, hd⟩
  | m + 1, j, a, hij, hd => by
    simp only [List.range'_succ, List.foldl_cons]
    obtain ⟨hl, hp, hh, ht, hdom⟩ :=
      sortLoop_inv i m (j + 1) (sortStep i a j) (by omega) (sortStep_dominates i a j hij hd)
    refine ⟨hl.trans (sortStep_length i a j), hp.trans (sortStep_perm i a j), ?_, ?_, ?_⟩
    · intro k hk
      rw [hh k hk, sortStep_getElem?_ne i a j k (by omega) (by omega)]
    · intro q y hq hy
      obtain ⟨q', hq', hy'⟩ := ht q y hq hy
      exact sortStep_tail i a j hij q' y hq' hy'
    · have e : j + 1 + m = j + (m + 1) := by omega
      rw [← e]
      exact hdom

theorem sortInner_inv (a : List scoredVideo) (i : Nat) (hs : SortedBelow i a) :
    (sortInner a i).length = a.length ∧ (sortInner a i).Perm a ∧
    SortedBelow (i + 1) (sortInner a i) := by
  obtain ⟨hl, hp, hh, ht, hdom⟩ :=
    sortLoop_inv i (a.length - (i + 1)) (i + 1) a (by omega)
      (fun k _ _ h1 h2 _ _ => by omega)
  refine ⟨hl, hp, ?_⟩
  intro p q x y hp' hpq hx hy
  have hql : q < a.length := by
    have := (List.getElem?_eq_some.mp hy).1
    unfold sortInner at this
    omega
  by_cases hpi : p = i
  · subst hpi
    exact hdom q y x hpq (by omega) hy hx
  · have hpl : p < i := by omega
    have hx' : a[p]? = some x := by
      have := hh p hpl
      unfold sortInner at hx
      rw [this] at hx
      exact hx
    by_cases hqi : q < i
    · have hy' : a[q]? = some y := by
        have := hh q hqi
        unfold sortInner at hy
        rw [this] at hy
        exact hy
      exact hs p q x y hpl hpq hx' hy'
    · obtain ⟨q', hq', hy'⟩ := ht q y (by omega) hy
      exact hs p q' x y hpl (by omega) hx' hy'

theorem sortOuter_inv :
    ∀ (n : Nat) (a : List scoredVideo),
      ((List.range n).foldl sortInner a).length = a.length ∧
      ((List.range n).foldl sortInner a).Perm a ∧
      SortedBelow n ((List.range n).foldl sortInner a)
  | 0, a => by
    simp only [List.range_zero, List.foldl_nil]
    exact ⟨trivial, List.Perm.refl a, fun p q x y hp => by omega⟩
  | n + 1, a => by
    rw [List.range_succ, List.foldl_append]
    obtain ⟨hl, hp, hs⟩ := sortOuter_inv n a
    obtain ⟨hl', hp', hs'⟩ := sortInner_inv _ n hs
    exact ⟨hl'.trans hl, hp'.trans hp, hs'⟩

theorem sortScored_length (a : List scoredVideo) : (sortScored a).length = a.length :=
  (sortOuter_inv (a.length - 1) a).1

theorem sortScored_perm (a : List scoredVideo) : (sortScored a).Perm a :=
  (sortOuter_inv (a.length - 1) a).2.1

/-- In the sorted array no element has to go before an earlier one. -/
theorem sortScored_sorted (a : List scoredVideo) (p q : Nat) (x y : scoredVideo)
    (hpq : p < q) (hx : (sortScored a)[p]? = some x) (hy : (sortScored a)[q]? = some y) :
    swapCond y x = false := by
  have hq : q < a.length := by
    have := (List.getElem?_eq_some.mp hy).1
    rwa [sortScored_length] at this
  exact (sortOuter_inv (a.length - 1) a).2.2 p q x y (by omega) hpq hx hy

/-! ## `strings.Fields` -/

theorem fieldsFrom_eq_nil_iff :
    ∀ (s cur : List Char), fieldsFrom cur s = [] ↔ cur = [] ∧ ∀ c ∈ s, IsSpace c = true
  | [], cur => by
    cases cur <;> simp [fieldsFrom]
  | r :: rest, cur => by
    unfold fieldsFrom
    by_cases hr : IsSpace r = true
    · cases cur with
      | nil => simpa [hr] using fieldsFrom_eq_nil_iff rest []
      | cons c cs => simp [hr]
    · have ih := fieldsFrom_eq_nil_iff rest (r :: cur)
      simp only [hr, Bool.false_eq_true, if_false, ih]
      simp [hr]

theorem Fields_eq_nil_iff (s : List Char) :
    Fields s = [] ↔ ∀ c ∈ s, IsSpace c = true := by
  simpa using fieldsFrom_eq_nil_iff s []

/-! ## `CalculateKeywordWeights`: shape of the result -/

theorem CalculateKeywordWeights_eq (lower : Char → Char) (query : List Char)
    (videoList : List VideoWithTags) :
    CalculateKeywordWeights lower query videoList =
      (Fields query).mapIdx (fun i word =>
        keywordAt lower (countWords lower (Fields query) videoList) videoList.length i word) := by
  unfold CalculateKeywordWeights
  by_cases h : (Fields query).length = 0
  · have h' : Fields query = [] := List.length_eq_zero.mp h
    simp [h']
  · simp [h]

theorem CalculateKeywordWeights_length (lower : Char → Char) (query : List Char)
    (videoList : List VideoWithTags) :
    (CalculateKeywordWeights lower query videoList).length = (Fields query).length := by
  rw [CalculateKeywordWeights_eq, List.length_mapIdx]

theorem CalculateKeywordWeights_eq_nil_iff (lower : Char → Char) (query : List Char)
    (videoList : List VideoWithTags) :
    CalculateKeywordWeights lower query videoList = [] ↔ Fields query = [] := by
  rw [← List.length_eq_zero, CalculateKeywordWeights_length, List.length_eq_zero]

/-! ## `SearchRank`: the paths -/

theorem SearchRank_of_no_keywords (lower : Char → Char) (log10 : ℚ → ℚ)
    (params : SearchRankParams) (h : Fields params.Query = []) :
    SearchRank lower log10 params = params.VideoList.map (fun v => v.Video) := by
  unfold SearchRank
  have hk := (CalculateKeywordWeights_eq_nil_iff lower params.Query params.VideoList).mpr h
  split
  · rfl
  · simp [hk]

theorem SearchRank_of_keywords (lower : Char → Char) (log10 : ℚ → ℚ)
    (params : SearchRankParams) (hq : Fields params.Query ≠ [])
    (hne : params.VideoList ≠ []) :
    SearchRank lower log10 params =
      (rankedVideos lower log10 params).map (fun sv => sv.video) := by
  unfold SearchRank
  have hq' : params.Query ≠ [] := by
    intro h
    apply hq
    rw [h]
    rfl
  have hk : CalculateKeywordWeights lower params.Query params.VideoList ≠ [] :=
    fun h => hq ((CalculateKeywordWeights_eq_nil_iff lower _ _).mp h)
  have hl : params.VideoList.length ≠ 0 := fun h => hne (List.length_eq_zero.mp h)
  simp [hq', hl, hk]

theorem scoreVideo_video (lower : Char → Char) (log10 : ℚ → ℚ) (keywords : List KeywordInfo)
    (video : VideoWithTags) : (scoreVideo lower log10 keywords video).video = video.Video := rfl

theorem scoreVideo_createdAt (lower : Char → Char) (log10 : ℚ → ℚ)
    (keywords : List KeywordInfo) (video : VideoWithTags) :
    (scoreVideo lower log10 keywords video).createdAt = video.Video.CreatedAt.Unix := rfl

/-- With a play count that is not negative the final score is finite. -/
theorem scoreVideo_score_fin (lower : Char → Char) (log10 : ℚ → ℚ)
    (keywords : List KeywordInfo) (video : VideoWithTags) (h : 0 ≤ video.Video.PlayCount) :
    (scoreVideo lower log10 keywords video).score =
      .fin (keywords.foldl (addKeyword lower video) 0.0 +
        log10 ((video.Video.PlayCount : ℚ) + 1)) := by
  have h1 : (0 : ℚ) < (video.Video.PlayCount : ℚ) + 1 := by
    have : (0 : ℚ) ≤ (video.Video.PlayCount : ℚ) := by exact_mod_cast h
    linarith
  simp only [scoreVideo, Log10, not_lt.mpr h1.le, if_false, ne_of_gt h1, F64.add]

theorem rankedVideos_perm (lower : Char → Char) (log10 : ℚ → ℚ) (params : SearchRankParams) :
    (rankedVideos lower log10 params).Perm
      (params.VideoList.map
        (scoreVideo lower log10
          (CalculateKeywordWeights lower params.Query params.VideoList))) :=
  sortScored_perm _

/-- Every record of the sorted array is the record computed for one of the
candidates. -/
theorem rankedVideos_mem (lower : Char → Char) (log10 : ℚ → ℚ) (params : SearchRankParams)
    (i : Nat) (x : scoredVideo) (hx : (rankedVideos lower log10 params)[i]? = some x) :
    ∃ v ∈ params.VideoList,
      x = scoreVideo lower log10
        (CalculateKeywordWeights lower params.Query params.VideoList) v := by
  have hm : x ∈ rankedVideos lower log10 params := List.mem_iff_getElem?.mpr ⟨i, hx⟩
  have hm' := (rankedVideos_perm lower log10 params).mem_iff.mp hm
  obtain ⟨v, hv, e⟩ := List.mem_map.mp hm'
  exact ⟨v, hv, e.symm⟩

/-! ## Ordering and permutation of the ranked list -/

/-- **C1.** For a query with at least one whitespace-delimited token and a
non-empty candidate list whose play counts are all `≥ 0`, `SearchRank` returns
the videos of its sorted array `scoredVideos`; that array is a rearrangement of
the records (video, final score, `CreatedAt.Unix()`) computed for the
candidates, all its scores are finite, and for every pair of positions `i < j`
the score at `i` is greater than the score at `j`, or the two scores are equal
and the stored integer key `createdAt` at `i` is `≥` the one at `j`. -/
theorem C1_SearchRank_ordered (lower : Char → Char) (log10 : ℚ → ℚ)
    (params : SearchRankParams)
    (hq : Fields params.Query ≠ [])
    (hne : params.VideoList ≠ [])
    (hpc : ∀ v ∈ params.VideoList, 0 ≤ v.Video.PlayCount) :
    SearchRank lower log10 params =
      (rankedVideos lower log10 params).map (fun sv => sv.video) ∧
    (rankedVideos lower log10 params).Perm
      (params.VideoList.map
        (scoreVideo lower log10
          (CalculateKeywordWeights lower params.Query params.VideoList))) ∧
    ∀ (i j : Nat) (x y : scoredVideo), i < j →
      (rankedVideos lower log10 params)[i]? = some x →
      (rankedVideos lower log10 params)[j]? = some y →
      ∃ sx sy : ℚ, x.score = .fin sx ∧ y.score = .fin sy ∧
        x.createdAt = x.video.CreatedAt.Unix ∧ y.createdAt = y.video.CreatedAt.Unix ∧
        (sx > sy ∨ (sx = sy ∧ x.createdAt ≥ y.createdAt)) := by
  refine ⟨SearchRank_of_keywords lower log10 params hq hne,
    rankedVideos_perm lower log10 params, ?_⟩
  intro i j x y hij hx hy
  obtain ⟨vx, hvx, ex⟩ := rankedVideos_mem lower log10 params i x hx
  obtain ⟨vy, hvy, ey⟩ := rankedVideos_mem lower log10 params j y hy
  have hsx := scoreVideo_score_fin lower log10
    (CalculateKeywordWeights lower params.Query params.VideoList) vx (hpc vx hvx)
  have hsy := scoreVideo_score_fin lower log10
    (CalculateKeywordWeights lower params.Query params.VideoList) vy (hpc vy hvy)
  rw [← ex] at hsx
  rw [← ey] at hsy
  have hs := sortScored_sorted _ i j x y hij hx hy
  refine ⟨_, _, hsx, hsy, by rw [ex]; rfl, by rw [ey]; rfl, ?_⟩
  simp only [swapCond, hsx, hsy, F64.gt, F64.eq, Bool.or_eq_false_iff,
    Bool.and_eq_false_imp, decide_eq_false_iff_not, decide_eq_true_eq, not_lt] at hs
  obtain ⟨h1, h2⟩ := hs
  rcases lt_or_eq_of_le h1 with h | h
  · exact Or.inl h
  · exact Or.inr ⟨h.symm, h2 h⟩

/-- Witness for C1: the hypotheses hold for the query "sunset" over the two
sunset videos, and the conclusion there. -/
theorem C1_SearchRank_ordered_witness :
    Fields sunsetParams.Query ≠ [] ∧ sunsetParams.VideoList ≠ [] ∧
    (∀ v ∈ sunsetParams.VideoList, 0 ≤ v.Video.PlayCount) ∧
    ∀ (i j : Nat) (x y : scoredVideo), i < j →
      (rankedVideos Char.toLower log10Chord sunsetParams)[i]? = some x →
      (rankedVideos Char.toLower log10Chord sunsetParams)[j]? = some y →
      ∃ sx sy : ℚ, x.score = .fin sx ∧ y.score = .fin sy ∧
        x.createdAt = x.video.CreatedAt.Unix ∧ y.createdAt = y.video.CreatedAt.Unix ∧
        (sx > sy ∨ (sx = sy ∧ x.createdAt ≥ y.createdAt)) :=
  ⟨by decide, by decide, by decide,
    (C1_SearchRank_ordered Char.toLower log10Chord sunsetParams
      (by decide) (by decide) (by decide)).2.2⟩

/-- **C2.** For every query and every candidate list, `SearchRank` returns a
permutation of the candidates' `Video` values: same length, every video value
occurring as often in the output as in the input, each one carried over whole
(all fields unchanged). -/
theorem C2_SearchRank_perm (lower : Char → Char) (log10 : ℚ → ℚ)
    (params : SearchRankParams) :
    (SearchRank lower log10 params).Perm (params.VideoList.map (fun v => v.Video)) ∧
    (SearchRank lower log10 params).length = params.VideoList.length ∧
    ∀ v : Video, (SearchRank lower log10 params).count v =
      (params.VideoList.map (fun v => v.Video)).count v := by
  have hp : (SearchRank lower log10 params).Perm
      (params.VideoList.map (fun v => v.Video)) := by
    by_cases hq : Fields params.Query = []
    · rw [SearchRank_of_no_keywords lower log10 params hq]
    · by_cases hne : params.VideoList = []
      · unfold SearchRank
        simp [hne]
      · rw [SearchRank_of_keywords lower log10 params hq hne]
        have h := (rankedVideos_perm lower log10 params).map (fun sv => sv.video)
        simpa [Function.comp_def, scoreVideo_video] using h
  exact ⟨hp, by simpa using hp.length_eq, fun v => hp.count_eq v⟩

/-- **C3.** With the empty query `SearchRank` returns the candidates' videos in
exactly the input order, and on an empty candidate list it returns the empty
list, whatever the query. -/
theorem C3_SearchRank_noop (lower : Char → Char) (log10 : ℚ → ℚ)
    (query : List Char) (videoList : List VideoWithTags) :
    SearchRank lower log10 { Query := [], VideoList := videoList } =
      videoList.map (fun v => v.Video) ∧
    SearchRank lower log10 { Query := query, VideoList := [] } = [] := by
  constructor <;> simp [SearchRank]

/-- **C4.** `CalculateKeywordWeights` returns no keywords exactly when every
rune of the query is white space; so for a non-empty query made of white space
only it returns nil and `SearchRank` returns the candidates' videos in the
input order, and for a query holding a rune that is not white space it returns
a non-empty list. -/
theorem C4_whitespace_query (lower : Char → Char) (log10 : ℚ → ℚ)
    (query : List Char) (videoList : List VideoWithTags) :
    (query ≠ [] → (∀ c ∈ query, IsSpace c = true) →
      CalculateKeywordWeights lower query videoList = [] ∧
      SearchRank lower log10 { Query := query, VideoList := videoList } =
        videoList.map (fun v => v.Video)) ∧
    ((∃ c ∈ query, IsSpace c = false) →
      CalculateKeywordWeights lower query videoList ≠ []) := by
  constructor
  · intro _ hws
    have hf : Fields query = [] := (Fields_eq_nil_iff query).mpr hws
    exact ⟨(CalculateKeywordWeights_eq_nil_iff lower query videoList).mpr hf,
      SearchRank_of_no_keywords lower log10 ⟨query, videoList⟩ hf⟩
  · rintro ⟨c, hc, hsp⟩ h
    have hf := (CalculateKeywordWeights_eq_nil_iff lower query videoList).mp h
    have := (Fields_eq_nil_iff query).mp hf c hc
    rw [hsp] at this
    cases this

/-- Witness for C4: the query of two blanks and the query " a" over the two
sunset videos. -/
theorem C4_whitespace_query_witness :
    ("  ".toList ≠ [] ∧ (∀ c ∈ "  ".toList, IsSpace c = true) ∧
      CalculateKeywordWeights Char.toLower "  ".toList sunsetParams.VideoList = [] ∧
      SearchRank Char.toLower log10Chord
          { Query := "  ".toList, VideoList := sunsetParams.VideoList } =
        sunsetParams.VideoList.map (fun v => v.Video)) ∧
    ((∃ c ∈ " a".toList, IsSpace c = false) ∧
      CalculateKeywordWeights Char.toLower " a".toList sunsetParams.VideoList ≠ []) :=
  ⟨⟨by decide, by decide,
      (C4_whitespace_query Char.toLower log10Chord "  ".toList sunsetParams.VideoList).1
        (by decide) (by decide)⟩,
    ⟨by decide,
      (C4_whitespace_query Char.toLower log10Chord " a".toList sunsetParams.VideoList).2
        (by decide)⟩⟩

/-! ## Ties -/

theorem F64_eq_symm {a b : F64} (h : F64.eq a b = true) : F64.eq b a = true := by
  cases a <;> cases b <;> simp_all [F64.eq]

/-- Counterexample to C5 as stated: the two candidates of `sameSecondParams`
get equal final scores and have different creation timestamps, the second one
half a second later than the first, and `SearchRank` returns the earlier one
first. -/
theorem C5_counterexample :
    (rankedVideos Char.toLower log10Chord sameSecondParams).map (fun sv => sv.score) =
      [.fin 0, .fin 0] ∧
    (sameSecondParams.VideoList.map (fun v => v.Video.CreatedAt)) =
      [{ sec := 100, nsec := 0 }, { sec := 100, nsec := 500000000 }] ∧
    Time.After { sec := 100, nsec := 500000000 } { sec := 100, nsec := 0 } = true ∧
    (SearchRank Char.toLower log10Chord sameSecondParams).map (fun v => v.CreatedAt) =
      [{ sec := 100, nsec := 0 }, { sec := 100, nsec := 500000000 }] := by
  decide!

/-- **C5 (amended).** In every ranking call that scores (a query with a token,
a non-empty candidate list), if two records of the sorted array have equal
final scores and the creation timestamps of their videos differ in whole Unix
seconds (`CreatedAt.Unix()`), the one with the later timestamp is at the
earlier position of `SearchRank`'s output. -/
theorem C5_SearchRank_tie_break (lower : Char → Char) (log10 : ℚ → ℚ)
    (params : SearchRankParams) (p q : Nat) (x y : scoredVideo)
    (hq : Fields params.Query ≠ [])
    (hne : params.VideoList ≠ [])
    (hx : (rankedVideos lower log10 params)[p]? = some x)
    (hy : (rankedVideos lower log10 params)[q]? = some y)
    (hs : F64.eq x.score y.score = true)
    (ht : x.video.CreatedAt.Unix < y.video.CreatedAt.Unix) :
    q < p ∧ (SearchRank lower log10 params)[q]? = some y.video ∧
      (SearchRank lower log10 params)[p]? = some x.video := by
  obtain ⟨vx, _, ex⟩ := rankedVideos_mem lower log10 params p x hx
  obtain ⟨vy, _, ey⟩ := rankedVideos_mem lower log10 params q y hy
  have hcx : x.createdAt = x.video.CreatedAt.Unix := by rw [ex]; rfl
  have hcy : y.createdAt = y.video.CreatedAt.Unix := by rw [ey]; rfl
  refine ⟨?_, ?_, ?_⟩
  · by_contra hpq
    have hle : p ≤ q := by omega
    rcases Nat.lt_or_eq_of_le hle with hlt | heq
    · have h := sortScored_sorted _ p q x y hlt hx hy
      have h' : swapCond y x = true := by
        have hgt : y.createdAt > x.createdAt := by rw [hcx, hcy]; exact ht
        simp [swapCond, F64_eq_symm hs, hgt]
      rw [h] at h'
      cases h'
    · subst heq
      rw [hx] at hy
      cases hy
      exact lt_irrefl _ ht
  · rw [SearchRank_of_keywords lower log10 params hq hne, List.getElem?_map, hy]
    rfl
  · rw [SearchRank_of_keywords lower log10 params hq hne, List.getElem?_map, hx]
    rfl

/-- Witness for C5 (amended): the two candidates of `laterSecondParams`, equal
in score and a hundred seconds apart. -/
theorem C5_SearchRank_tie_break_witness :
    Fields laterSecondParams.Query ≠ [] ∧ laterSecondParams.VideoList ≠ [] ∧
    (rankedVideos Char.toLower log10Chord laterSecondParams)[1]? =
      some { video := { ID := 1, Filename := "a".toList, CreatedAt := { sec := 100 } },
             score := .fin 0, createdAt := 100 } ∧
    (rankedVideos Char.toLower log10Chord laterSecondParams)[0]? =
      some { video := { ID := 2, Filename := "b".toList, CreatedAt := { sec := 200 } },
             score := .fin 0, createdAt := 200 } ∧
    (0 < 1 ∧
      (SearchRank Char.toLower log10Chord laterSecondParams)[0]? =
        some { ID := 2, Filename := "b".toList, CreatedAt := { sec := 200 } } ∧
      (SearchRank Char.toLower log10Chord laterSecondParams)[1]? =
        some { ID := 1, Filename := "a".toList, CreatedAt := { sec := 100 } }) :=
  ⟨by decide, by decide, by decide!, by decide!,
    C5_SearchRank_tie_break Char.toLower log10Chord laterSecondParams 1 0
      { video := { ID := 1, Filename := "a".toList, CreatedAt := { sec := 100 } },
        score := .fin 0, createdAt := 100 }
      { video := { ID := 2, Filename := "b".toList, CreatedAt := { sec := 200 } },
        score := .fin 0, createdAt := 200 }
      (by decide) (by decide) (by decide!) (by decide!) (by decide!) (by decide)⟩

/-! ## Keywords -/

theorem keywordAt_Word (lower : Char → Char) (wordCount : List Char → Int) (totalVideos i : Nat)
    (word : List Char) :
    (keywordAt lower wordCount totalVideos i word).Word = ToLower lower word := by
  unfold keywordAt
  dsimp only
  split_ifs <;> rfl

/-- **C6.** `CalculateKeywordWeights` returns exactly one `KeywordInfo` per
whitespace-delimited token of the query, in token order, with `Word` the
lowercased token; repeated tokens are kept (the query "cat cat" gives two
entries). -/
theorem C6_keywords_per_token (lower : Char → Char) (query : List Char)
    (videoList : List VideoWithTags) :
    (CalculateKeywordWeights lower query videoList).length = (Fields query).length ∧
    (CalculateKeywordWeights lower query videoList).map (fun kw => kw.Word) =
      (Fields query).map (ToLower lower) ∧
    (CalculateKeywordWeights Char.toLower "cat cat".toList videoList).map (fun kw => kw.Word) =
      ["cat".toList, "cat".toList] := by
  have key : ∀ (lo : Char → Char) (qu : List Char),
      (CalculateKeywordWeights lo qu videoList).map (fun kw => kw.Word) =
        (Fields qu).map (ToLower lo) := by
    intro lo qu
    rw [CalculateKeywordWeights_eq]
    apply List.ext_getElem?
    intro n
    rw [List.getElem?_map, List.getElem?_mapIdx, List.getElem?_map]
    cases (Fields qu)[n]? with
    | none => rfl
    | some w => simp [keywordAt_Word]
  refine ⟨CalculateKeywordWeights_length lower query videoList, key lower query, ?_⟩
  rw [key]
  decide

/-! ## The counting pass -/

theorem countWord_foldl (lower : Char → Char) (titleLower tags w : List Char) :
    ∀ (ws : List (List Char)) (st : (List Char → Int) × (List Char → Bool)),
      (ws.foldl (countWord lower titleLower tags) st).1 w =
        st.1 w + (if st.2 w = false ∧ w ∈ ws.map (ToLower lower) ∧
          (Contains titleLower w || Contains tags w) = true then 1 else 0)
  | [], st => by simp
  | u :: ws, st => by
    rw [List.foldl_cons, countWord_foldl lower titleLower tags w ws]
    by_cases hw : w = ToLower lower u
    · subst hw
      by_cases hP : (Contains titleLower (ToLower lower u) ||
          Contains tags (ToLower lower u)) = true
      · cases hs : st.2 (ToLower lower u) <;> simp [countWord, mapSet, hP, hs]
      · simp [countWord, hP]
    · have h1 : (countWord lower titleLower tags st u).1 w = st.1 w := by
        unfold countWord
        dsimp only
        split_ifs <;> simp [mapSet, hw]
      have h2 : (countWord lower titleLower tags st u).2 w = st.2 w := by
        unfold countWord
        dsimp only
        split_ifs <;> simp [mapSet, hw]
      rw [h1, h2]
      simp [hw]

theorem countVideo_apply (lower : Char → Char) (words : List (List Char))
    (wordCount : List Char → Int) (video : VideoWithTags) (w : List Char) :
    countVideo lower words wordCount video w =
      wordCount w + (if w ∈ words.map (ToLower lower) ∧ present lower w video = true
        then 1 else 0) := by
  unfold countVideo
  rw [countWord_foldl]
  simp [present]

theorem countVideo_foldl (lower : Char → Char) (words : List (List Char)) (w : List Char)
    (hw : w ∈ words.map (ToLower lower)) :
    ∀ (videoList : List VideoWithTags) (wordCount : List Char → Int),
      videoList.foldl (countVideo lower words) wordCount w =
        wordCount w + (videoList.countP (present lower w) : Int)
  | [], wordCount => by simp
  | v :: vs, wordCount => by
    rw [List.foldl_cons, countVideo_foldl lower words w hw vs, countVideo_apply,
      List.countP_cons]
    by_cases hp : present lower w v = true
    · simp [hw, hp]
      ring
    · simp [hp]

/-- After the counting pass `wordCount[w]`, for the lowercase form `w` of a
query word, is the number of candidates that pass the presence test. -/
theorem countWords_apply (lower : Char → Char) (words : List (List Char))
    (videoList : List VideoWithTags) (w : List Char) (hw : w ∈ words.map (ToLower lower)) :
    countWords lower words videoList w = (videoList.countP (present lower w) : Int) := by
  unfold countWords
  rw [countVideo_foldl lower words w hw]
  simp

/-! ## Keyword weights -/

theorem keywordAt_flags (lower : Char → Char) (wordCount : List Char → Int)
    (totalVideos i : Nat) (word : List Char) :
    ¬ ((keywordAt lower wordCount totalVideos i word).IsCommon = true ∧
      (keywordAt lower wordCount totalVideos i word).IsRare = true) := by
  unfold keywordAt
  dsimp only
  split_ifs <;> simp

theorem docFrequency_bounds (lower : Char → Char) (w : List Char)
    (videoList : List VideoWithTags) :
    0 ≤ docFrequency lower w videoList ∧ docFrequency lower w videoList ≤ 1 := by
  unfold docFrequency
  constructor
  · positivity
  · apply div_le_one_of_le₀
    · exact_mod_cast List.countP_le_length (present lower w)
    · positivity

/-- **C7.** For a non-empty candidate list, the keyword at index `i` of the
result of `CalculateKeywordWeights` has the lowercased token `i` as `Word` and
the weight `base * adj`, where `base` is `1.2` at index `0` and `1.0`
elsewhere, `f` is the number of candidates whose lowercased filename or
lowercased tag text contains the lowercased token (each candidate counted
once) over the number of candidates, and `adj` is `0.8` with `IsCommon` set if
`f > 0.2`, `1.5` with `IsRare` set if `0 < f < 0.05`, and `1` with both flags
false otherwise; `0 ≤ f ≤ 1`, and no keyword has both flags set. -/
theorem C7_keyword_weight (lower : Char → Char) (query : List Char)
    (videoList : List VideoWithTags) (i : Nat) (token : List Char)
    (hne : videoList ≠ [])
    (ht : (Fields query)[i]? = some token) :
    (CalculateKeywordWeights lower query videoList)[i]? =
      some { Word := ToLower lower token,
             Weight := (if i = 0 then 1.2 else 1.0) *
               (if docFrequency lower (ToLower lower token) videoList > 0.2 then 0.8
                else if 0 < docFrequency lower (ToLower lower token) videoList ∧
                  docFrequency lower (ToLower lower token) videoList < 0.05 then 1.5
                else 1),
             IsCommon := decide (docFrequency lower (ToLower lower token) videoList > 0.2),
             IsRare := decide (0 < docFrequency lower (ToLower lower token) videoList ∧
               docFrequency lower (ToLower lower token) videoList < 0.05) } ∧
    0 ≤ docFrequency lower (ToLower lower token) videoList ∧
    docFrequency lower (ToLower lower token) videoList ≤ 1 ∧
    ∀ kw ∈ CalculateKeywordWeights lower query videoList,
      ¬ (kw.IsCommon = true ∧ kw.IsRare = true) := by
  have hmem : ToLower lower token ∈ (Fields query).map (ToLower lower) :=
    List.mem_map.mpr ⟨token, List.mem_iff_getElem?.mpr ⟨i, ht⟩, rfl⟩
  have hlen : 0 < videoList.length := List.length_pos.mpr hne
  have hfreq : ((countWords lower (Fields query) videoList (ToLower lower token) : Int) : ℚ) /
      (videoList.length : ℚ) = docFrequency lower (ToLower lower token) videoList := by
    rw [countWords_apply _ _ _ _ hmem]
    simp [docFrequency]
  refine ⟨?_, (docFrequency_bounds lower _ videoList).1,
    (docFrequency_bounds lower _ videoList).2, ?_⟩
  · rw [CalculateKeywordWeights_eq, List.getElem?_mapIdx, ht]
    simp only [Option.map_some', Option.some.injEq]
    unfold keywordAt
    simp only [hfreq, hlen, if_true]
    generalize docFrequency lower (ToLower lower token) videoList = f
    by_cases h1 : f > 0.2
    · have h2 : ¬ (0 < f ∧ f < 0.05) := by
        rintro ⟨_, h⟩
        norm_num at h h1
        linarith
      simp [h1, h2]
    · by_cases h2 : 0 < f ∧ f < 0.05
      · have h3 : f < 0.05 ∧ f > 0 := ⟨h2.2, h2.1⟩
        simp [h1, h2, h3]
      · have h3 : ¬ (f < 0.05 ∧ f > 0) := fun h => h2 ⟨h.2, h.1⟩
        simp [h1, h2, h3]
  · intro kw hkw
    rw [CalculateKeywordWeights_eq] at hkw
    obtain ⟨n, hn⟩ := List.mem_iff_getElem?.mp hkw
    rw [List.getElem?_mapIdx] at hn
    cases hw : (Fields query)[n]? with
    | none => simp [hw] at hn
    | some w =>
      simp only [hw, Option.map_some', Option.some.injEq] at hn
      rw [← hn]
      exact keywordAt_flags lower _ _ n w

/-- Witness for C7: the token "sunset" of the query "sunset" over the two
sunset videos. -/
theorem C7_keyword_weight_witness :
    sunsetParams.VideoList ≠ [] ∧
    (Fields sunsetParams.Query)[0]? = some "sunset".toList ∧
    (CalculateKeywordWeights Char.toLower sunsetParams.Query sunsetParams.VideoList)[0]? =
      some { Word := ToLower Char.toLower "sunset".toList,
             Weight := (if 0 = 0 then 1.2 else 1.0) *
               (if docFrequency Char.toLower (ToLower Char.toLower "sunset".toList)
                    sunsetParams.VideoList > 0.2 then 0.8
                else if 0 < docFrequency Char.toLower (ToLower Char.toLower "sunset".toList)
                    sunsetParams.VideoList ∧
                  docFrequency Char.toLower (ToLower Char.toLower "sunset".toList)
                    sunsetParams.VideoList < 0.05 then 1.5
                else 1),
             IsCommon := decide (docFrequency Char.toLower
               (ToLower Char.toLower "sunset".toList) sunsetParams.VideoList > 0.2),
             IsRare := decide (0 < docFrequency Char.toLower
               (ToLower Char.toLower "sunset".toList) sunsetParams.VideoList ∧
               docFrequency Char.toLower (ToLower Char.toLower "sunset".toList)
                 sunsetParams.VideoList < 0.05) } :=
  ⟨by decide, by decide,
    (C7_keyword_weight Char.toLower sunsetParams.Query sunsetParams.VideoList 0
      "sunset".toList (by decide) (by decide)).1⟩

/-! ## `strings.Index` and `strings.Contains` -/

theorem isPrefixOf_iff_append :
    ∀ (substr s : List Char), substr.isPrefixOf s = true ↔ ∃ post, s = substr ++ post
  | [], s => by simp [List.isPrefixOf]
  | a :: substr, [] => by simp [List.isPrefixOf]
  | a :: substr, b :: s => by
    simp only [List.isPrefixOf, Bool.and_eq_true, beq_iff_eq, List.cons_append,
      List.cons.injEq, isPrefixOf_iff_append substr s]
    constructor
    · rintro ⟨rfl, post, rfl⟩
      exact ⟨post, rfl, rfl⟩
    · rintro ⟨post, rfl, rfl⟩
      exact ⟨rfl, post, rfl⟩

/-- What the search loop returns: `-1` when `substr` does not occur in `s`,
and otherwise `off` plus the byte length of what precedes the first
occurrence. -/
theorem indexFrom_spec (substr : List Char) :
    ∀ (s : List Char) (off : Nat),
      (indexFrom substr off s = -1 ∧ ¬ ∃ pre post, s = pre ++ substr ++ post) ∨
      (∃ pre post, s = pre ++ substr ++ post ∧
        indexFrom substr off s = ((off + byteLen pre : Nat) : Int) ∧
        ∀ pre' post', s = pre' ++ substr ++ post' → pre.length ≤ pre'.length)
  | [], off => by
    unfold indexFrom
    cases substr with
    | nil =>
      right
      exact ⟨[], [], rfl, by simp [byteLen], fun _ _ _ => Nat.zero_le _⟩
    | cons a t =>
      left
      refine ⟨by simp, ?_⟩
      rintro ⟨pre, post, h⟩
      simp at h
  | r :: rest, off => by
    unfold indexFrom
    by_cases hp : substr.isPrefixOf (r :: rest) = true
    · right
      obtain ⟨post, hpost⟩ := (isPrefixOf_iff_append substr (r :: rest)).mp hp
      exact ⟨[], post, by simpa using hpost, by simp [hp, byteLen],
        fun _ _ _ => Nat.zero_le _⟩
    · have hno : ¬ ∃ post, r :: rest = substr ++ post :=
        fun h => hp ((isPrefixOf_iff_append substr (r :: rest)).mpr h)
      simp only [hp, Bool.false_eq_true, if_false]
      rcases indexFrom_spec substr rest (off + r.utf8Size) with ⟨h1, h2⟩ | ⟨pre, post, e, h1, h2⟩
      · left
        refine ⟨h1, ?_⟩
        rintro ⟨pre', post', e'⟩
        cases pre' with
        | nil => exact hno ⟨post', by simpa using e'⟩
        | cons c pre'' =>
          simp only [List.cons_append, List.cons.injEq] at e'
          exact h2 ⟨pre'', post', e'.2⟩
      · right
        refine ⟨r :: pre, post, by simp [e], ?_, ?_⟩
        · rw [h1]
          simp [byteLen]
          omega
        · intro pre' post' e'
          cases pre' with
          | nil => exact absurd ⟨post', by simpa using e'⟩ hno
          | cons c pre'' =>
            simp only [List.cons_append, List.cons.injEq] at e'
            have := h2 pre'' post' e'.2
            simp only [List.length_cons]
            omega

theorem Contains_iff (s substr : List Char) :
    Contains s substr = true ↔ ∃ pre post, s = pre ++ substr ++ post := by
  unfold Contains Index
  rcases indexFrom_spec substr s 0 with ⟨h1, h2⟩ | ⟨pre, post, e, h1, _⟩
  · simp only [h1, h2, iff_false]
    decide
  · have : ∃ pre post, s = pre ++ substr ++ post := ⟨pre, post, e⟩
    simp only [h1, this, iff_true, decide_eq_true_eq]
    exact Int.natCast_nonneg _

/-- For a string that contains `substr`, `Index` is the byte length of what
precedes the first occurrence. -/
theorem Index_of_contains (s substr : List Char) (h : Contains s substr = true) :
    ∃ pre post, s = pre ++ substr ++ post ∧
      (∀ pre' post', s = pre' ++ substr ++ post' → pre.length ≤ pre'.length) ∧
      Index s substr = (byteLen pre : Int) := by
  rcases indexFrom_spec substr s 0 with ⟨_, h2⟩ | ⟨pre, post, e, h1, h3⟩
  · exact absurd ((Contains_iff s substr).mp h) h2
  · refine ⟨pre, post, e, h3, ?_⟩
    unfold Index
    rw [h1]
    simp

/-! ## `CalculateTitleScore` -/

theorem CalculateTitleScore_of_not_contains (lower : Char → Char) (title : List Char)
    (keyword : KeywordInfo) (h : Contains (ToLower lower title) keyword.Word = false) :
    CalculateTitleScore lower title keyword = (0, false) := by
  simp [CalculateTitleScore, h]

/-- The score of a hit as a function of the value `n` of `idx`. -/
theorem CalculateTitleScore_of_index (lower : Char → Char) (title : List Char)
    (keyword : KeywordInfo) (n : Nat)
    (hn : Index (ToLower lower title) keyword.Word = (n : Int)) :
    CalculateTitleScore lower title keyword =
      (10.0 * keyword.Weight * max 0.5 (1.0 - 0.05 * (((n / 10 : Nat) : ℚ))) *
        (if n < 10 then 1.1 else 1), true) := by
  have hc : Contains (ToLower lower title) keyword.Word = true := by
    unfold Contains
    rw [hn]
    simp
  have hfl : Rat.floor ((((n : Int) : ℚ)) / 10.0) = ((n / 10 : Nat) : Int) := by
    have h := Rat.floor_intCast_div_natCast (n : Int) 10
    have e : (((n : Int) : ℚ)) / 10.0 = ((n : Int) : ℚ) / ((10 : Nat) : ℚ) := by norm_num
    rw [e]
    exact h
  unfold CalculateTitleScore
  simp only [hc, Bool.not_true, Bool.false_eq_true, if_false, hn, hfl]
  have hpos : (((n : ℚ)) < 10) ↔ n < 10 := by
    constructor
    · intro h
      exact_mod_cast h
    · intro h
      exact_mod_cast h
  simp only [Int.cast_natCast, hpos, max_def]
  by_cases hd : (1.0 : ℚ) - 0.05 * ((n / 10 : Nat) : ℚ) < 0.5
  · have hd' : ¬ (0.5 : ℚ) ≤ 1.0 - 0.05 * ((n / 10 : Nat) : ℚ) := not_le.mpr hd
    simp only [hd, hd', if_true, if_false]
    split_ifs <;> ring_nf
  · have hd' : (0.5 : ℚ) ≤ 1.0 - 0.05 * ((n / 10 : Nat) : ℚ) := not_lt.mp hd
    simp only [hd, hd', if_true, if_false]
    split_ifs <;> ring_nf

theorem floor_div_ten (n : Nat) : (⌊((n : ℚ)) / 10⌋ : Int) = ((n / 10 : Nat) : Int) := by
  have h := Rat.floor_intCast_div_natCast (n : Int) 10
  simpa using h

/-- **C8.** `CalculateTitleScore` returns `(0, false)` when `Word` is not a
substring of the lowercased filename, and otherwise
`(10.0 * w * max(0.5, 1.0 - 0.05 * floor(position / 10)) * (1.1 if position < 10 else 1), true)`
where `position` is the offset (`strings.Index`: in bytes) of the first
occurrence of `Word` in the lowercased filename. -/
theorem C8_CalculateTitleScore (lower : Char → Char) (title : List Char)
    (keyword : KeywordInfo) :
    ((¬ ∃ pre post, ToLower lower title = pre ++ keyword.Word ++ post) ∧
      CalculateTitleScore lower title keyword = (0, false)) ∨
    (∃ pre post, ToLower lower title = pre ++ keyword.Word ++ post ∧
      (∀ pre' post', ToLower lower title = pre' ++ keyword.Word ++ post' →
        pre.length ≤ pre'.length) ∧
      Index (ToLower lower title) keyword.Word = (byteLen pre : Int) ∧
      CalculateTitleScore lower title keyword =
        (10.0 * keyword.Weight *
            max 0.5 (1.0 - 0.05 * ((⌊((byteLen pre : ℚ)) / 10⌋ : Int) : ℚ)) *
          (if byteLen pre < 10 then 1.1 else 1), true)) := by
  cases hc : Contains (ToLower lower title) keyword.Word with
  | false =>
    left
    refine ⟨?_, CalculateTitleScore_of_not_contains lower title keyword hc⟩
    intro h
    rw [(Contains_iff _ _).mpr h] at hc
    cases hc
  | true =>
    right
    obtain ⟨pre, post, e, hfirst, hidx⟩ := Index_of_contains _ _ hc
    refine ⟨pre, post, e, hfirst, hidx, ?_⟩
    rw [CalculateTitleScore_of_index lower title keyword (byteLen pre) hidx, floor_div_ten,
      Int.cast_natCast]

/-- **C9 (the code at the failing input).** In the filename "视频视频cat" the
keyword "cat" is preceded by 4 characters, which are 12 bytes.
`CalculateTitleScore` uses the byte offset 12: with weight 1 it returns
`10 * 0.95 = 9.5` (second decay step, no start bonus), whereas the character
offset 4 would give `10 * 1.0 * 1.1 = 11`, the score the code gives to
"abcdcat", where 4 one-byte characters precede the keyword. -/
theorem C9_byte_offset_position :
    Index (ToLower Char.toLower "视频视频cat".toList) "cat".toList = 12 ∧
    RuneIndex (ToLower Char.toLower "视频视频cat".toList) "cat".toList = 4 ∧
    CalculateTitleScore Char.toLower "视频视频cat".toList
      { Word := "cat".toList, Weight := 1, IsCommon := false, IsRare := false } =
        (19 / 2, true) ∧
    RuneIndex (ToLower Char.toLower "abcdcat".toList) "cat".toList = 4 ∧
    CalculateTitleScore Char.toLower "abcdcat".toList
      { Word := "cat".toList, Weight := 1, IsCommon := false, IsRare := false } =
        (11, true) := by
  decide!

/-! ## Position decay -/

theorem decay_antitone (n m : Nat) (h : n ≤ m) :
    max (0.5 : ℚ) (1.0 - 0.05 * ((m / 10 : Nat) : ℚ)) * (if m < 10 then 1.1 else 1) ≤
      max (0.5 : ℚ) (1.0 - 0.05 * ((n / 10 : Nat) : ℚ)) * (if n < 10 then 1.1 else 1) := by
  have hdiv : ((n / 10 : Nat) : ℚ) ≤ ((m / 10 : Nat) : ℚ) := by
    exact_mod_cast Nat.div_le_div_right h
  have hm0 : (0 : ℚ) ≤ ((m / 10 : Nat) : ℚ) := by positivity
  have hmax : max (0.5 : ℚ) (1.0 - 0.05 * ((m / 10 : Nat) : ℚ)) ≤
      max (0.5 : ℚ) (1.0 - 0.05 * ((n / 10 : Nat) : ℚ)) := by
    apply max_le_max (le_refl _)
    linarith
  by_cases hn : n < 10
  · have hn0 : n / 10 = 0 := Nat.div_eq_of_lt hn
    have hle1 : max (0.5 : ℚ) (1.0 - 0.05 * ((m / 10 : Nat) : ℚ)) ≤ 1 := by
      apply max_le
      · norm_num
      · linarith
    have hR : max (0.5 : ℚ) (1.0 - 0.05 * ((n / 10 : Nat) : ℚ)) = 1 := by
      rw [hn0]
      norm_num
    rw [hR]
    simp only [hn, if_true]
    split_ifs
    · nlinarith
    · linarith
  · have hm : ¬ m < 10 := by omega
    simp only [hn, hm, if_false, mul_one]
    exact hmax

theorem decay_ge_half (n : Nat) :
    (0.5 : ℚ) ≤ max (0.5 : ℚ) (1.0 - 0.05 * ((n / 10 : Nat) : ℚ)) *
      (if n < 10 then 1.1 else 1) := by
  have h1 : (0.5 : ℚ) ≤ max (0.5 : ℚ) (1.0 - 0.05 * ((n / 10 : Nat) : ℚ)) := le_max_left _ _
  split_ifs
  · nlinarith
  · linarith

theorem decay_far (m : Nat) (h : 100 ≤ m) :
    max (0.5 : ℚ) (1.0 - 0.05 * ((m / 10 : Nat) : ℚ)) * (if m < 10 then 1.1 else 1) = 0.5 := by
  have hm : ¬ m < 10 := by omega
  have hdiv : (10 : ℚ) ≤ ((m / 10 : Nat) : ℚ) := by
    have : 10 ≤ m / 10 := by omega
    exact_mod_cast this
  simp only [hm, if_false, mul_one]
  apply max_eq_left
  linarith

/-- **C10.** For a keyword with weight `w > 0` and two filenames that contain
it, at positions `p` and `q` (the values of `idx`): if `p ≤ q` the title score
at `p` is `≥` the title score at `q`; the title score of a match is never below
`0.5 * 10.0 * w`; and a match at position `0` scores strictly higher than a
match at any position `≥ 100`. -/
theorem C10_title_score_decay (lower : Char → Char) (keyword : KeywordInfo)
    (title₁ title₂ : List Char)
    (hw : 0 < keyword.Weight)
    (h₁ : Contains (ToLower lower title₁) keyword.Word = true)
    (h₂ : Contains (ToLower lower title₂) keyword.Word = true) :
    (Index (ToLower lower title₁) keyword.Word ≤ Index (ToLower lower title₂) keyword.Word →
      (CalculateTitleScore lower title₂ keyword).1 ≤
        (CalculateTitleScore lower title₁ keyword).1) ∧
    0.5 * 10.0 * keyword.Weight ≤ (CalculateTitleScore lower title₁ keyword).1 ∧
    (Index (ToLower lower title₁) keyword.Word = 0 →
      100 ≤ Index (ToLower lower title₂) keyword.Word →
      (CalculateTitleScore lower title₂ keyword).1 <
        (CalculateTitleScore lower title₁ keyword).1) := by
  obtain ⟨pre₁, _, _, _, hi₁⟩ := Index_of_contains _ _ h₁
  obtain ⟨pre₂, _, _, _, hi₂⟩ := Index_of_contains _ _ h₂
  rw [CalculateTitleScore_of_index lower title₁ keyword _ hi₁,
    CalculateTitleScore_of_index lower title₂ keyword _ hi₂, hi₁, hi₂]
  have hw10 : (0 : ℚ) < 10.0 * keyword.Weight := by
    have : (0 : ℚ) < 10.0 := by norm_num
    exact mul_pos this hw
  simp only [mul_assoc (10.0 * keyword.Weight)]
  refine ⟨?_, ?_, ?_⟩
  · intro hle
    have hle' : byteLen pre₁ ≤ byteLen pre₂ := by exact_mod_cast hle
    exact mul_le_mul_of_nonneg_left (decay_antitone _ _ hle') hw10.le
  · have h2 := mul_le_mul_of_nonneg_left (decay_ge_half (byteLen pre₁)) hw10.le
    linarith
  · intro h0 h100
    have h0' : byteLen pre₁ = 0 := by exact_mod_cast h0
    have h100' : 100 ≤ byteLen pre₂ := by exact_mod_cast h100
    rw [decay_far _ h100', h0']
    norm_num
    linarith

/-- Witness for C10: the keyword "cat" with weight 1 at position 0 of "cat"
and at position 100 of a filename that starts with a hundred `x`. -/
theorem C10_title_score_decay_witness :
    (0 : ℚ) < (1 : ℚ) ∧
    Contains (ToLower Char.toLower "cat".toList) "cat".toList = true ∧
    Contains (ToLower Char.toLower (List.replicate 100 'x' ++ "cat".toList))
      "cat".toList = true ∧
    (CalculateTitleScore Char.toLower (List.replicate 100 'x' ++ "cat".toList)
        { Word := "cat".toList, Weight := 1, IsCommon := false, IsRare := false }).1 ≤
      (CalculateTitleScore Char.toLower "cat".toList
        { Word := "cat".toList, Weight := 1, IsCommon := false, IsRare := false }).1 ∧
    0.5 * 10.0 * (1 : ℚ) ≤
      (CalculateTitleScore Char.toLower "cat".toList
        { Word := "cat".toList, Weight := 1, IsCommon := false, IsRare := false }).1 ∧
    (CalculateTitleScore Char.toLower (List.replicate 100 'x' ++ "cat".toList)
        { Word := "cat".toList, Weight := 1, IsCommon := false, IsRare := false }).1 <
      (CalculateTitleScore Char.toLower "cat".toList
        { Word := "cat".toList, Weight := 1, IsCommon := false, IsRare := false }).1 :=
  ⟨by norm_num, by decide, by decide!,
    (C10_title_score_decay Char.toLower
      { Word := "cat".toList, Weight := 1, IsCommon := false, IsRare := false }
      "cat".toList (List.replicate 100 'x' ++ "cat".toList)
      (by norm_num) (by decide) (by decide!)).1 (by decide!),
    (C10_title_score_decay Char.toLower
      { Word := "cat".toList, Weight := 1, IsCommon := false, IsRare := false }
      "cat".toList (List.replicate 100 'x' ++ "cat".toList)
      (by norm_num) (by decide) (by decide!)).2.1,
    (C10_title_score_decay Char.toLower
      { Word := "cat".toList, Weight := 1, IsCommon := false, IsRare := false }
      "cat".toList (List.replicate 100 'x' ++ "cat".toList)
      (by norm_num) (by decide) (by decide!)).2.2 (by decide!) (by decide!)⟩

/-! ## `CalculateTagScore` -/

theorem CalculateTagScore_of_hit (lower : Char → Char) (keyword : KeywordInfo) :
    ∀ (tagNames : List (List Char)),
      (∃ tag ∈ tagNames, Contains (ToLower lower tag) keyword.Word = true) →
      CalculateTagScore lower tagNames keyword = 5.0 * keyword.Weight
  | [], h => by
    obtain ⟨tag, hm, _⟩ := h
    cases hm
  | t :: rest, h => by
    unfold CalculateTagScore
    by_cases ht : Contains (ToLower lower t) keyword.Word = true
    · simp [ht]
    · simp only [ht, Bool.false_eq_true, if_false]
      apply CalculateTagScore_of_hit lower keyword rest
      obtain ⟨tag, hm, hc⟩ := h
      rcases List.mem_cons.mp hm with e | hm'
      · subst e
        exact absurd hc ht
      · exact ⟨tag, hm', hc⟩

theorem CalculateTagScore_of_no_hit (lower : Char → Char) (keyword : KeywordInfo) :
    ∀ (tagNames : List (List Char)),
      (∀ tag ∈ tagNames, Contains (ToLower lower tag) keyword.Word = false) →
      CalculateTagScore lower tagNames keyword = 0
  | [], _ => rfl
  | t :: rest, h => by
    unfold CalculateTagScore
    have ht := h t (List.mem_cons_self t rest)
    simp only [ht, Bool.false_eq_true, if_false]
    exact CalculateTagScore_of_no_hit lower keyword rest
      (fun tag hm => h tag (List.mem_cons_of_mem t hm))

theorem tag_hit_or_not (lower : Char → Char) (keyword : KeywordInfo)
    (tagNames : List (List Char)) :
    (∃ tag ∈ tagNames, Contains (ToLower lower tag) keyword.Word = true) ∨
    (∀ tag ∈ tagNames, Contains (ToLower lower tag) keyword.Word = false) := by
  by_cases h : ∃ tag ∈ tagNames, Contains (ToLower lower tag) keyword.Word = true
  · exact Or.inl h
  · right
    intro tag hm
    cases hc : Contains (ToLower lower tag) keyword.Word with
    | false => rfl
    | true => exact absurd ⟨tag, hm, hc⟩ h

/-- **C11.** `CalculateTagScore` returns `5.0 * w` if at least one tag,
lowercased, contains `Word` as a substring, and `0` otherwise; so two tag lists
that agree on whether some tag matches get the same score, whatever the number
of matching tags and the order of the tags. -/
theorem C11_CalculateTagScore (lower : Char → Char) (tagNames : List (List Char))
    (keyword : KeywordInfo) :
    (((∃ tag ∈ tagNames, Contains (ToLower lower tag) keyword.Word = true) ∧
        CalculateTagScore lower tagNames keyword = 5.0 * keyword.Weight) ∨
      ((∀ tag ∈ tagNames, Contains (ToLower lower tag) keyword.Word = false) ∧
        CalculateTagScore lower tagNames keyword = 0)) ∧
    (∀ tagNames' : List (List Char),
      ((∃ tag ∈ tagNames', Contains (ToLower lower tag) keyword.Word = true) ↔
        (∃ tag ∈ tagNames, Contains (ToLower lower tag) keyword.Word = true)) →
      CalculateTagScore lower tagNames' keyword = CalculateTagScore lower tagNames keyword) ∧
    (∀ tagNames' : List (List Char), tagNames'.Perm tagNames →
      CalculateTagScore lower tagNames' keyword =
        CalculateTagScore lower tagNames keyword) := by
  have key : ∀ tagNames' : List (List Char),
      ((∃ tag ∈ tagNames', Contains (ToLower lower tag) keyword.Word = true) ↔
        (∃ tag ∈ tagNames, Contains (ToLower lower tag) keyword.Word = true)) →
      CalculateTagScore lower tagNames' keyword =
        CalculateTagScore lower tagNames keyword := by
    intro tagNames' hiff
    rcases tag_hit_or_not lower keyword tagNames with h | h
    · rw [CalculateTagScore_of_hit lower keyword tagNames h,
        CalculateTagScore_of_hit lower keyword tagNames' (hiff.mpr h)]
    · rw [CalculateTagScore_of_no_hit lower keyword tagNames h]
      apply CalculateTagScore_of_no_hit
      intro tag hm
      cases hc : Contains (ToLower lower tag) keyword.Word with
      | false => rfl
      | true =>
        obtain ⟨t, ht, hct⟩ := hiff.mp ⟨tag, hm, hc⟩
        rw [h t ht] at hct
        cases hct
  refine ⟨?_, key, ?_⟩
  · rcases tag_hit_or_not lower keyword tagNames with h | h
    · exact Or.inl ⟨h, CalculateTagScore_of_hit lower keyword tagNames h⟩
    · exact Or.inr ⟨h, CalculateTagScore_of_no_hit lower keyword tagNames h⟩
  · intro tagNames' hperm
    apply key
    constructor
    · rintro ⟨tag, hm, hc⟩
      exact ⟨tag, hperm.mem_iff.mp hm, hc⟩
    · rintro ⟨tag, hm, hc⟩
      exact ⟨tag, hperm.mem_iff.mpr hm, hc⟩

/-- Witness for C11: with the keyword "cat" of weight 1 the tag lists
"cats", "concat" and "dog", "cat" get the same score. -/
theorem C11_CalculateTagScore_witness :
    CalculateTagScore Char.toLower ["cats".toList, "concat".toList]
        { Word := "cat".toList, Weight := 1, IsCommon := false, IsRare := false } =
      CalculateTagScore Char.toLower ["dog".toList, "Cat".toList]
        { Word := "cat".toList, Weight := 1, IsCommon := false, IsRare := false } :=
  (C11_CalculateTagScore Char.toLower ["dog".toList, "Cat".toList]
      { Word := "cat".toList, Weight := 1, IsCommon := false, IsRare := false }).2.1
    ["cats".toList, "concat".toList]
    ⟨fun _ => ⟨"Cat".toList, by decide, by decide⟩,
      fun _ => ⟨"cats".toList, by decide, by decide⟩⟩

/-! ## The per-video score -/

theorem CalculateTitleScore_snd (lower : Char → Char) (title : List Char)
    (keyword : KeywordInfo) :
    (CalculateTitleScore lower title keyword).2 =
      Contains (ToLower lower title) keyword.Word := by
  unfold CalculateTitleScore
  cases hc : Contains (ToLower lower title) keyword.Word <;> simp [hc]

theorem keywordAt_weight_pos (lower : Char → Char) (wordCount : List Char → Int)
    (totalVideos i : Nat) (word : List Char) :
    0 < (keywordAt lower wordCount totalVideos i word).Weight := by
  unfold keywordAt
  dsimp only
  split_ifs <;> norm_num

theorem CalculateKeywordWeights_weight_pos (lower : Char → Char) (query : List Char)
    (videoList : List VideoWithTags) :
    ∀ kw ∈ CalculateKeywordWeights lower query videoList, 0 < kw.Weight := by
  intro kw hkw
  rw [CalculateKeywordWeights_eq] at hkw
  obtain ⟨n, hn⟩ := List.mem_iff_getElem?.mp hkw
  rw [List.getElem?_mapIdx] at hn
  cases hw : (Fields query)[n]? with
  | none => simp [hw] at hn
  | some w =>
    simp only [hw, Option.map_some', Option.some.injEq] at hn
    rw [← hn]
    exact keywordAt_weight_pos lower _ _ n w

/-- For a keyword of positive weight one round of the keyword loop adds the
keyword's contribution. -/
theorem addKeyword_eq (lower : Char → Char) (video : VideoWithTags) (baseScore : ℚ)
    (kw : KeywordInfo) (hw : 0 < kw.Weight) :
    addKeyword lower video baseScore kw =
      baseScore + keywordContribution lower video kw := by
  have h5 : (0 : ℚ) < 5.0 * kw.Weight := by
    have : (0 : ℚ) < 5.0 := by norm_num
    exact mul_pos this hw
  unfold addKeyword keywordContribution
  simp only [CalculateTitleScore_snd]
  rcases tag_hit_or_not lower kw video.TagNames with ht | ht
  · have hex : (∃ tag ∈ video.TagNames, Contains (ToLower lower tag) kw.Word = true) := ht
    rw [CalculateTagScore_of_hit lower kw video.TagNames ht]
    cases hc : Contains (ToLower lower video.Video.Filename) kw.Word with
    | false =>
      rw [CalculateTitleScore_of_not_contains lower _ kw hc]
      simp [h5]
    | true =>
      simp only [h5, hex, and_self, if_true]
      ring
  · have hex : ¬ (∃ tag ∈ video.TagNames, Contains (ToLower lower tag) kw.Word = true) := by
      rintro ⟨tag, hm, hc⟩
      rw [ht tag hm] at hc
      cases hc
    rw [CalculateTagScore_of_no_hit lower kw video.TagNames ht]
    cases hc : Contains (ToLower lower video.Video.Filename) kw.Word with
    | false =>
      rw [CalculateTitleScore_of_not_contains lower _ kw hc]
      simp
    | true =>
      simp [hex]

theorem foldl_addKeyword (lower : Char → Char) (video : VideoWithTags) :
    ∀ (keywords : List KeywordInfo) (baseScore : ℚ),
      (∀ kw ∈ keywords, 0 < kw.Weight) →
      keywords.foldl (addKeyword lower video) baseScore =
        baseScore + (keywords.map (keywordContribution lower video)).sum
  | [], baseScore, _ => by simp
  | kw :: rest, baseScore, h => by
    rw [List.foldl_cons, addKeyword_eq lower video baseScore kw (h kw (List.mem_cons_self kw rest)),
      foldl_addKeyword lower video rest _ (fun k hk => h k (List.mem_cons_of_mem kw hk))]
    simp only [List.map_cons, List.sum_cons]
    ring

theorem keywordContribution_of_no_hit (lower : Char → Char) (video : VideoWithTags)
    (kw : KeywordInfo)
    (hc : Contains (ToLower lower video.Video.Filename) kw.Word = false)
    (ht : ∀ tag ∈ video.TagNames, Contains (ToLower lower tag) kw.Word = false) :
    keywordContribution lower video kw = 0 := by
  unfold keywordContribution
  rw [CalculateTitleScore_of_not_contains lower _ kw hc,
    CalculateTagScore_of_no_hit lower kw video.TagNames ht]
  simp [hc]

theorem F64_add_zero (x : F64) : F64.add (.fin 0) x = x := by
  cases x <;> simp [F64.add]

/-- The score field of the record built for a candidate. -/
theorem scoreVideo_score (lower : Char → Char) (log10 : ℚ → ℚ) (keywords : List KeywordInfo)
    (video : VideoWithTags) :
    (scoreVideo lower log10 keywords video).score =
      F64.add (.fin (keywords.foldl (addKeyword lower video) 0.0))
        (Log10 log10 ((video.Video.PlayCount : ℚ) + 1)) := rfl

/-- **C12.** For every video and every keyword list produced by
`CalculateKeywordWeights`, the final score `SearchRank` assigns is the sum over
all keywords (repeats included) of title score + tag score + (`3.0 * weight`
if the keyword hits both the filename and a tag, else `0`), plus
`log10(playCount + 1)` added once; a video that matches no keyword in filename
or tags has exactly the score `log10(playCount + 1)`. -/
theorem C12_final_score (lower : Char → Char) (log10 : ℚ → ℚ) (query : List Char)
    (videoList : List VideoWithTags) (video : VideoWithTags) :
    (scoreVideo lower log10 (CalculateKeywordWeights lower query videoList) video).score =
      F64.add
        (.fin (((CalculateKeywordWeights lower query videoList).map
          (fun kw =>
            (CalculateTitleScore lower video.Video.Filename kw).1 +
              CalculateTagScore lower video.TagNames kw +
              (if Contains (ToLower lower video.Video.Filename) kw.Word = true ∧
                  (∃ tag ∈ video.TagNames, Contains (ToLower lower tag) kw.Word = true)
                then 3.0 * kw.Weight else 0))).sum))
        (Log10 log10 ((video.Video.PlayCount : ℚ) + 1)) ∧
    ((∀ kw ∈ CalculateKeywordWeights lower query videoList,
        Contains (ToLower lower video.Video.Filename) kw.Word = false ∧
        ∀ tag ∈ video.TagNames, Contains (ToLower lower tag) kw.Word = false) →
      (scoreVideo lower log10 (CalculateKeywordWeights lower query videoList) video).score =
        Log10 log10 ((video.Video.PlayCount : ℚ) + 1)) := by
  have hsum := foldl_addKeyword lower video (CalculateKeywordWeights lower query videoList) 0.0
    (CalculateKeywordWeights_weight_pos lower query videoList)
  have h0 : (0.0 : ℚ) = 0 := by norm_num
  rw [h0, zero_add] at hsum
  constructor
  · rw [scoreVideo_score, h0, hsum]
    rfl
  · intro hno
    rw [scoreVideo_score, h0, hsum]
    have hz : ((CalculateKeywordWeights lower query videoList).map
        (keywordContribution lower video)).sum = 0 := by
      apply List.sum_eq_zero
      intro x hx
      obtain ⟨kw, hkw, e⟩ := List.mem_map.mp hx
      rw [← e]
      exact keywordContribution_of_no_hit lower video kw (hno kw hkw).1 (hno kw hkw).2
    rw [hz]
    exact F64_add_zero _

/-- Witness for C12: the query "zebra" matches neither of the two sunset
videos, so the first one has the score `log10(0 + 1)`. -/
theorem C12_final_score_witness :
    (scoreVideo Char.toLower log10Chord
        (CalculateKeywordWeights Char.toLower "zebra".toList sunsetParams.VideoList)
        { Video := { ID := 1, Filename := "Beach Sunset".toList, CreatedAt := { sec := 200 } } }).score =
      Log10 log10Chord (((0 : Int) : ℚ) + 1) :=
  (C12_final_score Char.toLower log10Chord "zebra".toList sunsetParams.VideoList
    { Video := { ID := 1, Filename := "Beach Sunset".toList, CreatedAt := { sec := 200 } } }).2
    (by decide!)

/-! ## The double-hit bonus -/

theorem CalculateKeywordWeights_single (lower : Char → Char) (query token : List Char)
    (videoList : List VideoWithTags) (hq : Fields query = [token]) :
    CalculateKeywordWeights lower query videoList =
      [keywordAt lower (countWords lower [token] videoList) videoList.length 0 token] := by
  rw [CalculateKeywordWeights_eq, hq]
  rfl

theorem keywordContribution_title_only (lower : Char → Char) (video : VideoWithTags)
    (kw : KeywordInfo)
    (ht : ∀ tag ∈ video.TagNames, Contains (ToLower lower tag) kw.Word = false) :
    keywordContribution lower video kw =
      (CalculateTitleScore lower video.Video.Filename kw).1 := by
  have hex : ¬ (∃ tag ∈ video.TagNames, Contains (ToLower lower tag) kw.Word = true) := by
    rintro ⟨tag, hm, hc⟩
    rw [ht tag hm] at hc
    cases hc
  unfold keywordContribution
  rw [CalculateTagScore_of_no_hit lower kw video.TagNames ht]
  simp [hex]

theorem keywordContribution_double_hit (lower : Char → Char) (video : VideoWithTags)
    (kw : KeywordInfo)
    (hc : Contains (ToLower lower video.Video.Filename) kw.Word = true)
    (ht : ∃ tag ∈ video.TagNames, Contains (ToLower lower tag) kw.Word = true) :
    keywordContribution lower video kw =
      (CalculateTitleScore lower video.Video.Filename kw).1 + 5.0 * kw.Weight +
        3.0 * kw.Weight := by
  unfold keywordContribution
  rw [CalculateTagScore_of_hit lower kw video.TagNames ht]
  simp [hc, ht]

/-- **C13.** For a single-keyword query and a candidate list containing two
videos with the same filename and the same play count (not negative, as the
store guarantees), where the keyword occurs in the filename of both and in a
tag name of the first only, both final scores are finite, the first is
strictly higher than the second, and the difference is at least `3.0` times
the keyword's weight (it is `5.0 * w + 3.0 * w`). -/
theorem C13_double_hit_bonus (lower : Char → Char) (log10 : ℚ → ℚ)
    (query token : List Char) (videoList : List VideoWithTags) (v₁ v₂ : VideoWithTags)
    (hq : Fields query = [token])
    (_hm₁ : v₁ ∈ videoList) (_hm₂ : v₂ ∈ videoList)
    (hf : v₁.Video.Filename = v₂.Video.Filename)
    (hp : v₁.Video.PlayCount = v₂.Video.PlayCount)
    (hpc : 0 ≤ v₁.Video.PlayCount)
    (htitle : Contains (ToLower lower v₁.Video.Filename) (ToLower lower token) = true)
    (htag₁ : ∃ tag ∈ v₁.TagNames, Contains (ToLower lower tag) (ToLower lower token) = true)
    (htag₂ : ∀ tag ∈ v₂.TagNames,
      Contains (ToLower lower tag) (ToLower lower token) = false) :
    ∃ (kw : KeywordInfo) (s₁ s₂ : ℚ),
      CalculateKeywordWeights lower query videoList = [kw] ∧
      kw.Word = ToLower lower token ∧ 0 < kw.Weight ∧
      (scoreVideo lower log10 (CalculateKeywordWeights lower query videoList) v₁).score =
        .fin s₁ ∧
      (scoreVideo lower log10 (CalculateKeywordWeights lower query videoList) v₂).score =
        .fin s₂ ∧
      s₂ < s₁ ∧ 3.0 * kw.Weight ≤ s₁ - s₂ ∧ s₁ - s₂ = 5.0 * kw.Weight + 3.0 * kw.Weight := by
  have hk := CalculateKeywordWeights_single lower query token videoList hq
  have hword := keywordAt_Word lower (countWords lower [token] videoList) videoList.length 0 token
  have hw := keywordAt_weight_pos lower (countWords lower [token] videoList)
    videoList.length 0 token
  have hpos : ∀ kw ∈ [keywordAt lower (countWords lower [token] videoList)
      videoList.length 0 token], 0 < kw.Weight := by
    intro kw hkw
    rw [List.mem_singleton.mp hkw]
    exact hw
  have h0 : (0.0 : ℚ) = 0 := by norm_num
  refine ⟨keywordAt lower (countWords lower [token] videoList) videoList.length 0 token,
    [keywordAt lower (countWords lower [token] videoList) videoList.length 0 token].foldl
        (addKeyword lower v₁) 0.0 + log10 ((v₁.Video.PlayCount : ℚ) + 1),
    [keywordAt lower (countWords lower [token] videoList) videoList.length 0 token].foldl
        (addKeyword lower v₂) 0.0 + log10 ((v₂.Video.PlayCount : ℚ) + 1),
    hk, hword, hw, ?_, ?_, ?_⟩
  · rw [hk]
    exact scoreVideo_score_fin lower log10 _ v₁ hpc
  · rw [hk]
    exact scoreVideo_score_fin lower log10 _ v₂ (hp ▸ hpc)
  · rw [foldl_addKeyword lower v₁ _ _ hpos, foldl_addKeyword lower v₂ _ _ hpos]
    simp only [List.map_cons, List.map_nil, List.sum_cons, List.sum_nil, add_zero, h0, zero_add]
    rw [keywordContribution_double_hit lower v₁ _ (by rw [hword]; exact htitle)
        (by rw [hword]; exact htag₁),
      keywordContribution_title_only lower v₂ _ (by rw [hword]; exact htag₂), hf, hp]
    have h3 : (0 : ℚ) < 3.0 * (keywordAt lower (countWords lower [token] videoList)
        videoList.length 0 token).Weight := by
      have : (0 : ℚ) < 3.0 := by norm_num
      exact mul_pos this hw
    have h5 : (0 : ℚ) < 5.0 * (keywordAt lower (countWords lower [token] videoList)
        videoList.length 0 token).Weight := by
      have : (0 : ℚ) < 5.0 := by norm_num
      exact mul_pos this hw
    refine ⟨by linarith, by linarith, by ring⟩

/-- Witness for C13: the query "sunset" over `taggedSunset` and
`untaggedSunset`. -/
theorem C13_double_hit_bonus_witness :
    Fields "sunset".toList = ["sunset".toList] ∧
    taggedSunset.Video.Filename = untaggedSunset.Video.Filename ∧
    taggedSunset.Video.PlayCount = untaggedSunset.Video.PlayCount ∧
    0 ≤ taggedSunset.Video.PlayCount ∧
    ∃ (kw : KeywordInfo) (s₁ s₂ : ℚ),
      CalculateKeywordWeights Char.toLower "sunset".toList [taggedSunset, untaggedSunset] =
        [kw] ∧
      kw.Word = ToLower Char.toLower "sunset".toList ∧ 0 < kw.Weight ∧
      (scoreVideo Char.toLower log10Chord
        (CalculateKeywordWeights Char.toLower "sunset".toList [taggedSunset, untaggedSunset])
        taggedSunset).score = .fin s₁ ∧
      (scoreVideo Char.toLower log10Chord
        (CalculateKeywordWeights Char.toLower "sunset".toList [taggedSunset, untaggedSunset])
        untaggedSunset).score = .fin s₂ ∧
      s₂ < s₁ ∧ 3.0 * kw.Weight ≤ s₁ - s₂ ∧ s₁ - s₂ = 5.0 * kw.Weight + 3.0 * kw.Weight :=
  ⟨by decide, by decide, by decide, by decide,
    C13_double_hit_bonus Char.toLower log10Chord "sunset".toList "sunset".toList
      [taggedSunset, untaggedSunset] taggedSunset untaggedSunset
      (by decide) (by decide) (by decide) (by decide) (by decide) (by decide)
      (by decide) (by decide) (by decide)⟩

/-! ## Rare and common tokens -/

theorem CalculateKeywordWeights_getElem? (lower : Char → Char) (query : List Char)
    (videoList : List VideoWithTags) (i : Nat) (token : List Char)
    (ht : (Fields query)[i]? = some token) :
    (CalculateKeywordWeights lower query videoList)[i]? =
      some (keywordAt lower (countWords lower (Fields query) videoList)
        videoList.length i token) := by
  rw [CalculateKeywordWeights_eq, List.getElem?_mapIdx, ht]
  rfl

/-- The frequency computed in the weight loop is the document frequency. -/
theorem frequency_eq_docFrequency (lower : Char → Char) (query : List Char)
    (videoList : List VideoWithTags) (i : Nat) (token : List Char)
    (ht : (Fields query)[i]? = some token) :
    ((countWords lower (Fields query) videoList (ToLower lower token) : Int) : ℚ) /
      (videoList.length : ℚ) = docFrequency lower (ToLower lower token) videoList := by
  have hmem : ToLower lower token ∈ (Fields query).map (ToLower lower) :=
    List.mem_map.mpr ⟨token, List.mem_iff_getElem?.mpr ⟨i, ht⟩, rfl⟩
  rw [countWords_apply _ _ _ _ hmem]
  simp [docFrequency]

theorem keywordAt_weight_common (lower : Char → Char) (wordCount : List Char → Int)
    (totalVideos i : Nat) (word : List Char) (hn : 0 < totalVideos)
    (hf : ((wordCount (ToLower lower word) : Int) : ℚ) / (totalVideos : ℚ) > 0.2) :
    (keywordAt lower wordCount totalVideos i word).Weight =
      (if i = 0 then 1.2 else 1.0) * 0.8 := by
  unfold keywordAt
  simp only [hn, hf, if_true]

theorem keywordAt_weight_not_common (lower : Char → Char) (wordCount : List Char → Int)
    (totalVideos i : Nat) (word : List Char)
    (hf : ¬ ((wordCount (ToLower lower word) : Int) : ℚ) / (totalVideos : ℚ) > 0.2) :
    (if i = 0 then (1.2 : ℚ) else 1.0) ≤
      (keywordAt lower wordCount totalVideos i word).Weight := by
  unfold keywordAt
  simp only [hf, if_false]
  split_ifs <;> norm_num

theorem docFrequency_pos_ne_nil (lower : Char → Char) (w : List Char)
    (videoList : List VideoWithTags) (h : 0 < docFrequency lower w videoList) :
    0 < videoList.length := by
  rcases Nat.eq_zero_or_pos videoList.length with h0 | h0
  · rw [List.length_eq_zero.mp h0] at h
    simp [docFrequency] at h
  · exact h0

/-- **C14.** For candidate lists of any size and a token at any position of
the query, in particular the first (anchor) position: the weight
`CalculateKeywordWeights` gives the token when it is present in more than 0%
and at most 5% of the candidates is strictly higher than the weight it gives
the token, at the same position, when it is present in more than 20% of the
candidates. -/
theorem C14_rare_beats_common (lower : Char → Char) (query token : List Char)
    (rareList commonList : List VideoWithTags) (i : Nat)
    (ht : (Fields query)[i]? = some token)
    (hrare : 0 < docFrequency lower (ToLower lower token) rareList ∧
      docFrequency lower (ToLower lower token) rareList ≤ 0.05)
    (hcommon : docFrequency lower (ToLower lower token) commonList > 0.2) :
    ∃ kr kc : KeywordInfo,
      (CalculateKeywordWeights lower query rareList)[i]? = some kr ∧
      (CalculateKeywordWeights lower query commonList)[i]? = some kc ∧
      kc.Weight < kr.Weight := by
  refine ⟨_, _, CalculateKeywordWeights_getElem? lower query rareList i token ht,
    CalculateKeywordWeights_getElem? lower query commonList i token ht, ?_⟩
  have hnc : 0 < commonList.length := by
    apply docFrequency_pos_ne_nil lower (ToLower lower token)
    have : (0 : ℚ) < 0.2 := by norm_num
    exact lt_trans this hcommon
  have hc := keywordAt_weight_common lower (countWords lower (Fields query) commonList)
    commonList.length i token hnc
    (by rw [frequency_eq_docFrequency lower query commonList i token ht]; exact hcommon)
  have hr := keywordAt_weight_not_common lower (countWords lower (Fields query) rareList)
    rareList.length i token
    (by
      rw [frequency_eq_docFrequency lower query rareList i token ht]
      intro h
      have h2 := hrare.2
      norm_num at h h2
      linarith)
  rw [hc]
  refine lt_of_lt_of_le ?_ hr
  split_ifs <;> norm_num

/-- Witness for C14: the anchor token "sunset", present in 1 of the 20
candidates of `rareSunsetList` (exactly 5%) and in both sunset videos. -/
theorem C14_rare_beats_common_witness :
    (Fields "sunset".toList)[0]? = some "sunset".toList ∧
    (0 < docFrequency Char.toLower (ToLower Char.toLower "sunset".toList) rareSunsetList ∧
      docFrequency Char.toLower (ToLower Char.toLower "sunset".toList) rareSunsetList ≤ 0.05) ∧
    docFrequency Char.toLower (ToLower Char.toLower "sunset".toList)
      sunsetParams.VideoList > 0.2 ∧
    ∃ kr kc : KeywordInfo,
      (CalculateKeywordWeights Char.toLower "sunset".toList rareSunsetList)[0]? = some kr ∧
      (CalculateKeywordWeights Char.toLower "sunset".toList sunsetParams.VideoList)[0]? =
        some kc ∧
      kc.Weight < kr.Weight :=
  ⟨by decide, by decide!, by decide!,
    C14_rare_beats_common Char.toLower "sunset".toList "sunset".toList rareSunsetList
      sunsetParams.VideoList 0 (by decide) (by decide!) (by decide!)⟩

/-! ## Repeated tokens -/

/-- The contribution of a keyword is proportional to its weight. -/
theorem keywordContribution_scale (lower : Char → Char) (video : VideoWithTags)
    (kw kw' : KeywordInfo) (hword : kw'.Word = kw.Word) :
    keywordContribution lower video kw' * kw.Weight =
      keywordContribution lower video kw * kw'.Weight := by
  unfold keywordContribution
  rw [hword]
  have htag : CalculateTagScore lower video.TagNames kw' * kw.Weight =
      CalculateTagScore lower video.TagNames kw * kw'.Weight := by
    rcases tag_hit_or_not lower kw video.TagNames with ht | ht
    · rw [CalculateTagScore_of_hit lower kw video.TagNames ht,
        CalculateTagScore_of_hit lower kw' video.TagNames (by rw [hword]; exact ht)]
      ring
    · rw [CalculateTagScore_of_no_hit lower kw video.TagNames ht,
        CalculateTagScore_of_no_hit lower kw' video.TagNames (by rw [hword]; exact ht)]
      ring
  have htitle : (CalculateTitleScore lower video.Video.Filename kw').1 * kw.Weight =
      (CalculateTitleScore lower video.Video.Filename kw).1 * kw'.Weight := by
    cases hc : Contains (ToLower lower video.Video.Filename) kw.Word with
    | false =>
      rw [CalculateTitleScore_of_not_contains lower _ kw hc,
        CalculateTitleScore_of_not_contains lower _ kw' (by rw [hword]; exact hc)]
      simp
    | true =>
      obtain ⟨pre, _, _, _, hidx⟩ := Index_of_contains _ _ hc
      rw [CalculateTitleScore_of_index lower _ kw (byteLen pre) hidx,
        CalculateTitleScore_of_index lower _ kw' (byteLen pre) (by rw [hword]; exact hidx)]
      dsimp only
      ring
  split_ifs
  · linear_combination htitle + htag
  · linear_combination htitle + htag

theorem keywordAt_congr (lower : Char → Char) (wordCount wordCount' : List Char → Int)
    (totalVideos i : Nat) (word : List Char)
    (h : wordCount (ToLower lower word) = wordCount' (ToLower lower word)) :
    keywordAt lower wordCount totalVideos i word =
      keywordAt lower wordCount' totalVideos i word := by
  unfold keywordAt
  dsimp only
  rw [h]

/-- The second occurrence of a token gets the weight of the first with the
base `1.0` in place of `1.2`. -/
theorem keywordAt_second_weight (lower : Char → Char) (wordCount : List Char → Int)
    (totalVideos : Nat) (word : List Char) :
    (keywordAt lower wordCount totalVideos 1 word).Weight * 1.2 =
      (keywordAt lower wordCount totalVideos 0 word).Weight := by
  have h10 : ¬ ((1 : Nat) = 0) := by decide
  unfold keywordAt
  simp only [h10, if_false, if_true]
  split_ifs <;> norm_num

theorem countWords_repeat (lower : Char → Char) (token : List Char)
    (videoList : List VideoWithTags) :
    countWords lower [token, token] videoList (ToLower lower token) =
      countWords lower [token] videoList (ToLower lower token) := by
  rw [countWords_apply lower [token, token] videoList _ (by simp),
    countWords_apply lower [token] videoList _ (by simp)]

/-- Counterexample to C15 as stated: for the video "cat" alone in the
candidate list the title-plus-tag contribution is `264/25` under the query
"cat" and `484/25`, not `528/25`, under the query "cat cat". -/
theorem C15_counterexample :
    (CalculateKeywordWeights Char.toLower "cat".toList [catVideo]).foldl
        (addKeyword Char.toLower catVideo) 0.0 = 264 / 25 ∧
    (CalculateKeywordWeights Char.toLower "cat cat".toList [catVideo]).foldl
        (addKeyword Char.toLower catVideo) 0.0 = 484 / 25 ∧
    (CalculateKeywordWeights Char.toLower "cat cat".toList [catVideo]).foldl
        (addKeyword Char.toLower catVideo) 0.0 ≠
      2 * (CalculateKeywordWeights Char.toLower "cat".toList [catVideo]).foldl
        (addKeyword Char.toLower catVideo) 0.0 := by
  decide!

/-- **C15 (amended).** For every video and candidate set, the two keywords of
a query that repeats its sole token (such as "cat cat") are scored one after
the other, the first with base weight `1.2` and the second with base weight
`1.0`: the title-plus-tag contribution (the score minus the popularity term)
is `11/6` times the contribution under the single-token query. -/
theorem C15_repeated_token (lower : Char → Char) (log10 : ℚ → ℚ)
    (token query₁ query₂ : List Char) (videoList : List VideoWithTags)
    (video : VideoWithTags)
    (h₁ : Fields query₁ = [token]) (h₂ : Fields query₂ = [token, token]) :
    (scoreVideo lower log10 (CalculateKeywordWeights lower query₁ videoList) video).score =
      F64.add (.fin ((CalculateKeywordWeights lower query₁ videoList).foldl
        (addKeyword lower video) 0.0)) (Log10 log10 ((video.Video.PlayCount : ℚ) + 1)) ∧
    (scoreVideo lower log10 (CalculateKeywordWeights lower query₂ videoList) video).score =
      F64.add (.fin ((CalculateKeywordWeights lower query₂ videoList).foldl
        (addKeyword lower video) 0.0)) (Log10 log10 ((video.Video.PlayCount : ℚ) + 1)) ∧
    (CalculateKeywordWeights lower query₂ videoList).foldl (addKeyword lower video) 0.0 =
      11 / 6 * (CalculateKeywordWeights lower query₁ videoList).foldl
        (addKeyword lower video) 0.0 := by
  refine ⟨rfl, rfl, ?_⟩
  have hk₁ := CalculateKeywordWeights_single lower query₁ token videoList h₁
  have hk₂ : CalculateKeywordWeights lower query₂ videoList =
      [keywordAt lower (countWords lower [token] videoList) videoList.length 0 token,
       keywordAt lower (countWords lower [token] videoList) videoList.length 1 token] := by
    rw [CalculateKeywordWeights_eq, h₂]
    simp only [List.mapIdx_cons, List.mapIdx_nil, zero_add]
    rw [keywordAt_congr lower _ (countWords lower [token] videoList) videoList.length 0 token
        (countWords_repeat lower token videoList),
      keywordAt_congr lower _ (countWords lower [token] videoList) videoList.length 1 token
        (countWords_repeat lower token videoList)]
  have h0 : (0.0 : ℚ) = 0 := by norm_num
  have hpos₁ : ∀ kw ∈ [keywordAt lower (countWords lower [token] videoList)
      videoList.length 0 token], 0 < kw.Weight := by
    intro kw hkw
    rw [List.mem_singleton.mp hkw]
    exact keywordAt_weight_pos lower _ _ 0 token
  have hpos₂ : ∀ kw ∈ [keywordAt lower (countWords lower [token] videoList)
      videoList.length 0 token,
      keywordAt lower (countWords lower [token] videoList) videoList.length 1 token],
      0 < kw.Weight := by
    intro kw hkw
    rcases List.mem_cons.mp hkw with e | hkw'
    · rw [e]
      exact keywordAt_weight_pos lower _ _ 0 token
    · rw [List.mem_singleton.mp hkw']
      exact keywordAt_weight_pos lower _ _ 1 token
  rw [hk₁, hk₂, foldl_addKeyword lower video _ _ hpos₁,
    foldl_addKeyword lower video _ _ hpos₂]
  simp only [List.map_cons, List.map_nil, List.sum_cons, List.sum_nil, add_zero, h0, zero_add]
  have hscale := keywordContribution_scale lower video
    (keywordAt lower (countWords lower [token] videoList) videoList.length 0 token)
    (keywordAt lower (countWords lower [token] videoList) videoList.length 1 token)
    (by rw [keywordAt_Word, keywordAt_Word])
  have hw := keywordAt_second_weight lower (countWords lower [token] videoList)
    videoList.length token
  have hpos := keywordAt_weight_pos lower (countWords lower [token] videoList)
    videoList.length 1 token
  rw [← hw] at hscale
  have hne : (keywordAt lower (countWords lower [token] videoList)
      videoList.length 1 token).Weight ≠ 0 := ne_of_gt hpos
  have hc : keywordContribution lower video
      (keywordAt lower (countWords lower [token] videoList) videoList.length 1 token) * 1.2 =
      keywordContribution lower video
        (keywordAt lower (countWords lower [token] videoList) videoList.length 0 token) := by
    apply mul_right_cancel₀ hne
    linear_combination hscale
  norm_num at hc
  linear_combination (5 / 6 : ℚ) * hc

/-- Witness for C15 (amended): the queries "cat" and "cat cat" over the
video "cat". -/
theorem C15_repeated_token_witness :
    Fields "cat".toList = ["cat".toList] ∧
    Fields "cat cat".toList = ["cat".toList, "cat".toList] ∧
    (CalculateKeywordWeights Char.toLower "cat cat".toList [catVideo]).foldl
        (addKeyword Char.toLower catVideo) 0.0 =
      11 / 6 * (CalculateKeywordWeights Char.toLower "cat".toList [catVideo]).foldl
        (addKeyword Char.toLower catVideo) 0.0 :=
  ⟨by decide, by decide,
    (C15_repeated_token Char.toLower log10Chord "cat".toList "cat".toList "cat cat".toList
      [catVideo] catVideo (by decide) (by decide)).2.2⟩

/-! ## The sunset scenario -/

/-- The sort on an array of two records. -/
theorem sortScored_pair (x y : scoredVideo) :
    sortScored [x, y] = if swapCond y x = true then [y, x] else [x, y] := by
  simp [sortScored, sortInner, sortStep, List.range_succ, List.range'_succ]

theorem sunset_title_scores (t0 t1 : Time) (kw : KeywordInfo)
    (hword : kw.Word = "sunset".toList) :
    (CalculateTitleScore Char.toLower (sunsetVideo1 t1).Video.Filename kw).1 =
      (CalculateTitleScore Char.toLower (sunsetVideo2 t0).Video.Filename kw).1 := by
  have h1 : Index (ToLower Char.toLower (sunsetVideo1 t1).Video.Filename) kw.Word =
      ((6 : Nat) : Int) := by
    rw [hword]
    show Index (ToLower Char.toLower "Beach Sunset".toList) "sunset".toList = ((6 : Nat) : Int)
    decide
  have h2 : Index (ToLower Char.toLower (sunsetVideo2 t0).Video.Filename) kw.Word =
      ((0 : Nat) : Int) := by
    rw [hword]
    show Index (ToLower Char.toLower "Sunset over Beach".toList) "sunset".toList =
      ((0 : Nat) : Int)
    decide
  rw [CalculateTitleScore_of_index Char.toLower _ kw 6 h1,
    CalculateTitleScore_of_index Char.toLower _ kw 0 h2]
  norm_num

theorem sunset_contributions (t0 t1 : Time) (kw : KeywordInfo)
    (hword : kw.Word = "sunset".toList) :
    keywordContribution Char.toLower (sunsetVideo1 t1) kw =
      keywordContribution Char.toLower (sunsetVideo2 t0) kw := by
  rw [keywordContribution_title_only Char.toLower (sunsetVideo1 t1) kw (by
      intro tag hm
      cases hm),
    keywordContribution_title_only Char.toLower (sunsetVideo2 t0) kw (by
      intro tag hm
      have e : tag = "nature".toList := by
        have hm' : tag ∈ ["nature".toList] := hm
        exact List.mem_singleton.mp hm'
      rw [e, hword]
      decide)]
  exact sunset_title_scores t0 t1 kw hword

/-- **C16.** For the candidates id 1 ("Beach Sunset", no tags, play count 0,
created `t1`) and id 2 ("Sunset over Beach", tag "nature", play count 100,
created `t0`), in this order, and the query "sunset", `SearchRank` returns the
video with id 2 first and the video with id 1 second, for every `math.Log10`
with `log10(1) < log10(101)` and whatever the creation times (so also when
`t0 < t1`). -/
theorem C16_sunset_scenario (log10 : ℚ → ℚ) (t0 t1 : Time)
    (hlog : log10 1 < log10 101) :
    SearchRank Char.toLower log10 (sunsetScenario t0 t1) =
      [(sunsetVideo2 t0).Video, (sunsetVideo1 t1).Video] ∧
    (SearchRank Char.toLower log10 (sunsetScenario t0 t1)).map (fun v => v.ID) = [2, 1] := by
  have hf : Fields (sunsetScenario t0 t1).Query = ["sunset".toList] := by
    show Fields "sunset".toList = ["sunset".toList]
    decide
  have hq : Fields (sunsetScenario t0 t1).Query ≠ [] := by
    rw [hf]
    exact List.cons_ne_nil _ _
  have hne : (sunsetScenario t0 t1).VideoList ≠ [] := List.cons_ne_nil _ _
  have hk := CalculateKeywordWeights_single Char.toLower (sunsetScenario t0 t1).Query
    "sunset".toList (sunsetScenario t0 t1).VideoList hf
  have hword : (keywordAt Char.toLower
      (countWords Char.toLower ["sunset".toList] (sunsetScenario t0 t1).VideoList)
      (sunsetScenario t0 t1).VideoList.length 0 "sunset".toList).Word = "sunset".toList := by
    rw [keywordAt_Word]
    decide
  have hpos : ∀ kw ∈ [keywordAt Char.toLower
      (countWords Char.toLower ["sunset".toList] (sunsetScenario t0 t1).VideoList)
      (sunsetScenario t0 t1).VideoList.length 0 "sunset".toList], 0 < kw.Weight := by
    intro kw hkw
    rw [List.mem_singleton.mp hkw]
    exact keywordAt_weight_pos Char.toLower _ _ 0 _
  have hs1 := scoreVideo_score_fin Char.toLower log10
    (CalculateKeywordWeights Char.toLower (sunsetScenario t0 t1).Query
      (sunsetScenario t0 t1).VideoList) (sunsetVideo1 t1) (le_refl (0 : Int))
  have hs2 := scoreVideo_score_fin Char.toLower log10
    (CalculateKeywordWeights Char.toLower (sunsetScenario t0 t1).Query
      (sunsetScenario t0 t1).VideoList) (sunsetVideo2 t0)
    (by show (0 : Int) ≤ 100; decide)
  have hbase : (CalculateKeywordWeights Char.toLower (sunsetScenario t0 t1).Query
        (sunsetScenario t0 t1).VideoList).foldl (addKeyword Char.toLower (sunsetVideo1 t1)) 0.0 =
      (CalculateKeywordWeights Char.toLower (sunsetScenario t0 t1).Query
        (sunsetScenario t0 t1).VideoList).foldl (addKeyword Char.toLower (sunsetVideo2 t0)) 0.0 := by
    rw [hk, foldl_addKeyword Char.toLower (sunsetVideo1 t1) _ _ hpos,
      foldl_addKeyword Char.toLower (sunsetVideo2 t0) _ _ hpos]
    simp only [List.map_cons, List.map_nil, List.sum_cons, List.sum_nil, add_zero]
    rw [sunset_contributions t0 t1 _ hword]
  have hp1 : (((sunsetVideo1 t1).Video.PlayCount : Int) : ℚ) + 1 = 1 := by
    show (((0 : Int)) : ℚ) + 1 = 1
    norm_num
  have hp2 : (((sunsetVideo2 t0).Video.PlayCount : Int) : ℚ) + 1 = 101 := by
    show (((100 : Int)) : ℚ) + 1 = 101
    norm_num
  rw [hp1] at hs1
  rw [hp2, ← hbase] at hs2
  have hswap : swapCond
      (scoreVideo Char.toLower log10
        (CalculateKeywordWeights Char.toLower (sunsetScenario t0 t1).Query
          (sunsetScenario t0 t1).VideoList) (sunsetVideo2 t0))
      (scoreVideo Char.toLower log10
        (CalculateKeywordWeights Char.toLower (sunsetScenario t0 t1).Query
          (sunsetScenario t0 t1).VideoList) (sunsetVideo1 t1)) = true := by
    unfold swapCond
    rw [hs1, hs2]
    simp only [F64.gt, Bool.or_eq_true, decide_eq_true_eq]
    left
    linarith
  have hrank : rankedVideos Char.toLower log10 (sunsetScenario t0 t1) =
      [scoreVideo Char.toLower log10
        (CalculateKeywordWeights Char.toLower (sunsetScenario t0 t1).Query
          (sunsetScenario t0 t1).VideoList) (sunsetVideo2 t0),
       scoreVideo Char.toLower log10
        (CalculateKeywordWeights Char.toLower (sunsetScenario t0 t1).Query
          (sunsetScenario t0 t1).VideoList) (sunsetVideo1 t1)] := by
    unfold rankedVideos
    show sortScored [_, _] = _
    rw [sortScored_pair, hswap]
    rfl
  have hres : SearchRank Char.toLower log10 (sunsetScenario t0 t1) =
      [(sunsetVideo2 t0).Video, (sunsetVideo1 t1).Video] := by
    rw [SearchRank_of_keywords Char.toLower log10 _ hq hne, hrank]
    rfl
  exact ⟨hres, by rw [hres]; rfl⟩

/-- Witness for C16: the stand-in `log10Chord` and the creation times 100 s
and 200 s. -/
theorem C16_sunset_scenario_witness :
    log10Chord 1 < log10Chord 101 ∧
    SearchRank Char.toLower log10Chord (sunsetScenario { sec := 100 } { sec := 200 }) =
      [(sunsetVideo2 { sec := 100 }).Video, (sunsetVideo1 { sec := 200 }).Video] :=
  ⟨by decide!,
    (C16_sunset_scenario log10Chord { sec := 100 } { sec := 200 } (by decide!)).1⟩

/-! ## Paging -/

theorem wrapInt64_of_range (x : Int) (h₁ : -2 ^ 63 ≤ x) (h₂ : x < 2 ^ 63) :
    wrapInt64 x = x := by
  unfold wrapInt64
  omega

/-- Where `page * pageSize` does not overflow, the paging block returns the
elements at the indices from `(page - 1) * pageSize` up to
`min (page * pageSize) n`. -/
theorem pageWindow_in_range {α : Type} (page pageSize : Int) (sorted : List α)
    (hp : 1 ≤ page) (hs : 1 ≤ pageSize) (hb : page * pageSize ≤ 2 ^ 63 - 1) :
    pageWindow page pageSize sorted =
      some ((sorted.drop ((page - 1) * pageSize).toNat).take pageSize.toNat) := by
  have hmul : (page - 1) * pageSize + pageSize = page * pageSize := by ring
  have ha0 : 0 ≤ (page - 1) * pageSize := mul_nonneg (by omega) (by omega)
  have hpp : page ≤ page * pageSize := by nlinarith
  have hw1 : wrapInt64 (page - 1) = page - 1 := wrapInt64_of_range _ (by omega) (by omega)
  have hw2 : wrapInt64 ((page - 1) * pageSize) = (page - 1) * pageSize :=
    wrapInt64_of_range _ (by omega) (by omega)
  have hw3 : wrapInt64 ((page - 1) * pageSize + pageSize) = (page - 1) * pageSize + pageSize :=
    wrapInt64_of_range _ (by omega) (by omega)
  unfold pageWindow
  simp only [hw1, hw2, hw3]
  generalize (page - 1) * pageSize = a at ha0 hmul
  by_cases hlt : a < (sorted.length : Int)
  · simp only [hlt, if_true]
    by_cases hgt : a + pageSize > (sorted.length : Int)
    · simp only [hgt, if_true]
      unfold sliceRange
      have hc : 0 ≤ a ∧ a ≤ (sorted.length : Int) ∧ (sorted.length : Int) ≤ (sorted.length : Int) :=
        ⟨ha0, by omega, le_refl _⟩
      simp only [hc, and_self, if_true, Option.some.injEq, Int.toNat_ofNat]
      rw [List.take_of_length_le (by rw [List.length_drop]),
        List.take_of_length_le (by rw [List.length_drop]; omega)]
    · simp only [hgt, if_false]
      unfold sliceRange
      have hc : 0 ≤ a ∧ a ≤ a + pageSize ∧ a + pageSize ≤ (sorted.length : Int) :=
        ⟨ha0, by omega, by omega⟩
      simp only [hc, and_self, if_true, Option.some.injEq]
      have e : (a + pageSize).toNat - a.toNat = pageSize.toNat := by omega
      rw [e]
  · simp only [hlt, if_false, Option.some.injEq]
    rw [List.drop_eq_nil_of_le (by omega), List.take_nil]

/-- **C17 (the code at the failing input).** For a sequence of 15 items the
paging block returns the items at the indices `[10, 15)` for page 2 with page
size 10 and the empty list for page 3; but for the page `2^62 + 1` with page
size 2, which `GetVideos` accepts and for which `(p - 1) * s = 2^63 ≥ 15`, the
result is not the empty list: `offset` wraps to `-2^63` and the slice
expression panics. -/
theorem C17_page_window_overflow :
    pageWindow 2 10 (List.range 15) = some [10, 11, 12, 13, 14] ∧
    pageWindow 3 10 (List.range 15) = some [] ∧
    ((1 : Int) ≤ 2 ^ 62 + 1 ∧ (2 : Int) ^ 62 + 1 ≤ 2 ^ 63 - 1 ∧
      ((2 : Int) ^ 62 + 1 - 1) * 2 ≥ 15) ∧
    wrapInt64 (((2 : Int) ^ 62 + 1 - 1) * 2) = -2 ^ 63 ∧
    pageWindow (2 ^ 62 + 1) 2 (List.range 15) = none := by
  decide

/-- **C18 (the code at the failing input).** With page `2^62 + 1` and page
size 2, both positive and representable as a Go `int`, `offset` wraps to
`-2^63`; it passes the test `offset < len` for every list, `endIdx` is not
clamped, and the slice expression with the negative lower bound panics:
the paging block returns no page at all. -/
theorem C18_page_slice_out_of_range (sorted : List Video) :
    ((0 : Int) < 2 ^ 62 + 1 ∧ (2 : Int) ^ 62 + 1 ≤ 2 ^ 63 - 1) ∧
    wrapInt64 (wrapInt64 ((2 : Int) ^ 62 + 1 - 1) * 2) = -2 ^ 63 ∧
    pageWindow (2 ^ 62 + 1) 2 sorted = none := by
  have hw : wrapInt64 (wrapInt64 ((2 : Int) ^ 62 + 1 - 1) * 2) = -2 ^ 63 := by decide
  refine ⟨by decide, hw, ?_⟩
  unfold pageWindow
  simp only [hw]
  have hlt : (-2 ^ 63 : Int) < (sorted.length : Int) := by
    have : (0 : Int) ≤ (sorted.length : Int) := Int.natCast_nonneg _
    omega
  have hneg : ¬ (0 ≤ (-2 ^ 63 : Int)) := by decide
  simp only [hlt, if_true]
  unfold sliceRange
  simp only [hneg, false_and, if_false]

/-! ## The three execution paths -/

/-- **C19.** `GetVideos` takes exactly one of three paths: the ranked path if
and only if the keyword is non-empty and `sort_by = "created_at"` and
`order = "desc"`; the eager-load path if and only if the tag-id filter is
non-empty and the keyword is empty; the direct path in all other cases.  The
two triggers are never both true. -/
theorem C19_exactly_one_path (params : VideoQueryParams) :
    (selectPath params = .ranked ↔
      (params.Keyword ≠ [] ∧ params.SortBy = "created_at".toList ∧
        params.Order = "desc".toList)) ∧
    (selectPath params = .eagerLoad ↔ (params.TagIDs ≠ [] ∧ params.Keyword = [])) ∧
    (selectPath params = .direct ↔
      (¬ (params.Keyword ≠ [] ∧ params.SortBy = "created_at".toList ∧
          params.Order = "desc".toList) ∧
        ¬ (params.TagIDs ≠ [] ∧ params.Keyword = []))) ∧
    ¬ (useSmartRank params = true ∧ loadTagsForSearch params = true) := by
  have hrank : useSmartRank params = true ↔
      (params.Keyword ≠ [] ∧ params.SortBy = "created_at".toList ∧
        params.Order = "desc".toList) := by
    simp [useSmartRank, and_assoc]
  have hload : loadTagsForSearch params = true ↔
      (params.TagIDs ≠ [] ∧ params.Keyword = []) := by
    simp [loadTagsForSearch, List.length_pos]
  have hexcl : ¬ (useSmartRank params = true ∧ loadTagsForSearch params = true) := by
    rw [hrank, hload]
    rintro ⟨⟨h1, _⟩, _, h2⟩
    exact h1 h2
  rw [← hrank, ← hload]
  unfold selectPath
  cases hr : useSmartRank params <;> cases hl : loadTagsForSearch params <;>
    simp_all

/-! ## The random order of the eager-load path -/

theorem set_of_getElem? {α : Type} (l : List α) (i : Nat) (a : α) (h : l[i]? = some a) :
    l.set i a = l := by
  apply List.ext_getElem?
  intro k
  rw [List.getElem?_set]
  by_cases hik : i = k
  · subst hik
    have hlt : i < l.length := (List.getElem?_eq_some.mp h).1
    simp [hlt, h]
  · simp [hik]

theorem swapIdx_self {α : Type} (l : List α) (i : Nat) : swapIdx l i i = l := by
  unfold swapIdx
  cases h : l[i]? with
  | none => rfl
  | some a =>
    simp only
    rw [set_of_getElem? l i a h, set_of_getElem? l i a h]

/-- The loop of the branch without seed exchanges every element with itself:
it returns the list as it was. -/
theorem noSeedShuffle_eq {α : Type} (l : List α) : noSeedShuffle l = l := by
  unfold noSeedShuffle
  generalize (List.range' 1 (l.length - 1)).reverse = idxs
  induction idxs generalizing l with
  | nil => rfl
  | cons i rest ih =>
    rw [List.foldl_cons, Nat.mod_eq_of_lt (Nat.lt_succ_self i), swapIdx_self]
    exact ih l

/-- **C20 (the code at the failing input).** `GetVideos` never reads the
request parameter `random_seed`: whatever the request supplies, `RandomSeed`
is `0` after the parameter block, so with sort column "random" the eager-load
path never calls the seeded generator and returns the candidates in their
original order.  For the request `tag_ids=1&sort_by=random&random_seed=42` the
eager-load path is taken and the order is the input order, even if the seeded
shuffle would reverse the list. -/
theorem C20_seed_ignored (query : List Char → List Char)
    (shuffle : Int → List Video → List Video) (dbOrder : List Char → List Video)
    (allVideos : List Video) :
    (parseVideoQuery query).RandomSeed = 0 ∧
    ((parseVideoQuery query).SortBy = "random".toList →
      eagerLoadOrder shuffle dbOrder (parseVideoQuery query) allVideos = allVideos) ∧
    (seededRequest "random_seed".toList = "42".toList ∧
      selectPath (parseVideoQuery seededRequest) = .eagerLoad ∧
      (parseVideoQuery seededRequest).SortBy = "random".toList ∧
      eagerLoadOrder (fun _ l => l.reverse) dbOrder (parseVideoQuery seededRequest) allVideos =
        allVideos) := by
  have hseed : ∀ q : List Char → List Char, (parseVideoQuery q).RandomSeed = 0 :=
    fun _ => rfl
  have hrandom : ∀ (q : List Char → List Char) (sh : Int → List Video → List Video),
      (parseVideoQuery q).SortBy = "random".toList →
      eagerLoadOrder sh dbOrder (parseVideoQuery q) allVideos = allVideos := by
    intro q sh hsort
    unfold eagerLoadOrder
    simp only [hsort, if_true, hseed q, lt_irrefl, gt_iff_lt, if_false]
    exact noSeedShuffle_eq allVideos
  refine ⟨hseed query, hrandom query shuffle, by decide, by decide, by decide, ?_⟩
  exact hrandom seededRequest _ (by decide)

/-- **C21.** On the eager-load path with sort column "random" and no positive
seed (`RandomSeed ≤ 0`) the shuffle loop leaves every candidate list in its
original order: at each step the swap index `i mod (i + 1)` is the loop index
`i`, so every swap exchanges an element with itself. -/
theorem C21_no_seed_shuffle_noop (shuffle : Int → List Video → List Video)
    (dbOrder : List Char → List Video) (params : VideoQueryParams) (allVideos : List Video)
    (hsort : params.SortBy = "random".toList) (hseed : params.RandomSeed ≤ 0) :
    eagerLoadOrder shuffle dbOrder params allVideos = allVideos ∧
    noSeedShuffle allVideos = allVideos ∧
    (∀ i : Nat, i % (i + 1) = i) ∧
    (∀ (l : List Video) (i : Nat), swapIdx l i (i % (i + 1)) = l) := by
  have hmod : ∀ i : Nat, i % (i + 1) = i := fun i => Nat.mod_eq_of_lt (Nat.lt_succ_self i)
  refine ⟨?_, noSeedShuffle_eq allVideos, hmod, ?_⟩
  · unfold eagerLoadOrder
    have hs : ¬ params.RandomSeed > 0 := not_lt.mpr hseed
    simp only [hsort, if_true, hs, if_false]
    exact noSeedShuffle_eq allVideos
  · intro l i
    rw [hmod i]
    exact swapIdx_self l i

/-- Witness for C21: sort column "random", seed 0, the videos of the sunset
scenario, and a seeded shuffle that would reverse the list. -/
theorem C21_no_seed_shuffle_noop_witness :
    ({ SortBy := "random".toList, RandomSeed := 0 } : VideoQueryParams).SortBy =
      "random".toList ∧
    ({ SortBy := "random".toList, RandomSeed := 0 } : VideoQueryParams).RandomSeed ≤ 0 ∧
    eagerLoadOrder (fun _ l => l.reverse) (fun _ => [])
        { SortBy := "random".toList, RandomSeed := 0 }
        (sunsetParams.VideoList.map (fun v => v.Video)) =
      sunsetParams.VideoList.map (fun v => v.Video) :=
  ⟨by decide, by decide,
    (C21_no_seed_shuffle_noop (fun _ l => l.reverse) (fun _ => [])
      { SortBy := "random".toList, RandomSeed := 0 }
      (sunsetParams.VideoList.map (fun v => v.Video)) (by decide) (by decide)).1⟩

/-! ## No candidates -/

theorem keywordAt_of_no_videos (lower : Char → Char) (wordCount : List Char → Int)
    (i : Nat) (word : List Char) :
    keywordAt lower wordCount 0 i word =
      { Word := ToLower lower word, Weight := if i = 0 then 1.2 else 1.0,
        IsCommon := false, IsRare := false } := by
  unfold keywordAt
  simp

/-- **C22.** For a query with at least one token and an empty candidate list
`CalculateKeywordWeights` returns (the function is total: no division error)
one keyword per token, each with its base weight unchanged, `1.2` for the
first token and `1.0` for the others, and `IsCommon = false`,
`IsRare = false`. -/
theorem C22_empty_candidates (lower : Char → Char) (query : List Char) (i : Nat)
    (token : List Char) (ht : (Fields query)[i]? = some token) :
    (CalculateKeywordWeights lower query [])[i]? =
      some { Word := ToLower lower token, Weight := if i = 0 then 1.2 else 1.0,
             IsCommon := false, IsRare := false } ∧
    (CalculateKeywordWeights lower query []).length = (Fields query).length := by
  refine ⟨?_, CalculateKeywordWeights_length lower query []⟩
  rw [CalculateKeywordWeights_getElem? lower query [] i token ht]
  exact congrArg some (keywordAt_of_no_videos lower _ i token)

/-- Witness for C22: the second token of the query "red Sunset". -/
theorem C22_empty_candidates_witness :
    (Fields "red Sunset".toList)[1]? = some "Sunset".toList ∧
    (CalculateKeywordWeights Char.toLower "red Sunset".toList [])[1]? =
      some { Word := ToLower Char.toLower "Sunset".toList, Weight := if 1 = 0 then 1.2 else 1.0,
             IsCommon := false, IsRare := false } :=
  ⟨by decide,
    (C22_empty_candidates Char.toLower "red Sunset".toList 1 "Sunset".toList (by decide)).1⟩

/-! ## The sort is not stable -/

theorem sortScored_triple (x y z : scoredVideo) (h₁ : swapCond y x = false)
    (h₂ : swapCond z x = true) (h₃ : swapCond x y = false) :
    sortScored [x, y, z] = [z, y, x] := by
  simp [sortScored, sortInner, sortStep, List.range_succ, List.range'_succ, h₁, h₂, h₃]

/-- The record built for a candidate whose play count is not negative. -/
theorem scoreVideo_eq_of_nonneg (lower : Char → Char) (log10 : ℚ → ℚ)
    (keywords : List KeywordInfo) (video : VideoWithTags) (h : 0 ≤ video.Video.PlayCount) :
    scoreVideo lower log10 keywords video =
      { video := video.Video,
        score := .fin (keywords.foldl (addKeyword lower video) 0.0 +
          log10 ((video.Video.PlayCount : ℚ) + 1)),
        createdAt := video.Video.CreatedAt.Unix } := by
  have hs := scoreVideo_score_fin lower log10 keywords video h
  have hv := scoreVideo_video lower log10 keywords video
  have hc := scoreVideo_createdAt lower log10 keywords video
  cases hsv : scoreVideo lower log10 keywords video with
  | mk v sc c =>
    rw [hsv] at hs hv hc
    simp only at hs hv hc
    rw [hs, hv, hc]

/-- **C23.** The sort of `SearchRank` is not stable: for the query "x" and the
candidates "a" (id 1), "b" (id 2), "x" (id 3), all created at the same instant
and never played, the videos 1 and 2 get equal final scores and equal
timestamps and come out in the opposite order, `[3, 2, 1]`, while the output
is ordered by (score, timestamp).  This holds for every `math.Log10`. -/
theorem C23_sort_not_stable (log10 : ℚ → ℚ) :
    unstableParams.VideoList.map (fun v => v.Video.ID) = [1, 2, 3] ∧
    (rankedVideos Char.toLower log10 unstableParams).map
        (fun sv => (sv.video.ID, sv.score, sv.createdAt)) =
      [(3, .fin (264 / 25 + log10 1), 0), (2, .fin (0 + log10 1), 0),
        (1, .fin (0 + log10 1), 0)] ∧
    (SearchRank Char.toLower log10 unstableParams).map (fun v => v.ID) = [3, 2, 1] := by
  have hq : Fields unstableParams.Query ≠ [] := by decide
  have hne : unstableParams.VideoList ≠ [] := by decide
  have hl : unstableParams.VideoList =
      [ { Video := { ID := 1, Filename := "a".toList } },
        { Video := { ID := 2, Filename := "b".toList } },
        { Video := { ID := 3, Filename := "x".toList } } ] := rfl
  have h1 := scoreVideo_eq_of_nonneg Char.toLower log10
    (CalculateKeywordWeights Char.toLower unstableParams.Query unstableParams.VideoList)
    { Video := { ID := 1, Filename := "a".toList } } (le_refl _)
  have h2 := scoreVideo_eq_of_nonneg Char.toLower log10
    (CalculateKeywordWeights Char.toLower unstableParams.Query unstableParams.VideoList)
    { Video := { ID := 2, Filename := "b".toList } } (le_refl _)
  have h3 := scoreVideo_eq_of_nonneg Char.toLower log10
    (CalculateKeywordWeights Char.toLower unstableParams.Query unstableParams.VideoList)
    { Video := { ID := 3, Filename := "x".toList } } (le_refl _)
  have b1 : (CalculateKeywordWeights Char.toLower unstableParams.Query
      unstableParams.VideoList).foldl
      (addKeyword Char.toLower { Video := { ID := 1, Filename := "a".toList } }) 0.0 = 0 := by
    decide!
  have b2 : (CalculateKeywordWeights Char.toLower unstableParams.Query
      unstableParams.VideoList).foldl
      (addKeyword Char.toLower { Video := { ID := 2, Filename := "b".toList } }) 0.0 = 0 := by
    decide!
  have b3 : (CalculateKeywordWeights Char.toLower unstableParams.Query
      unstableParams.VideoList).foldl
      (addKeyword Char.toLower { Video := { ID := 3, Filename := "x".toList } }) 0.0 =
      264 / 25 := by
    decide!
  have e1 : (((({ ID := 1, Filename := "a".toList } : Video).PlayCount : Int) : ℚ)) + 1 = 1 := by
    show (((0 : Int)) : ℚ) + 1 = 1
    norm_num
  have e2 : (((({ ID := 2, Filename := "b".toList } : Video).PlayCount : Int) : ℚ)) + 1 = 1 := by
    show (((0 : Int)) : ℚ) + 1 = 1
    norm_num
  have e3 : (((({ ID := 3, Filename := "x".toList } : Video).PlayCount : Int) : ℚ)) + 1 = 1 := by
    show (((0 : Int)) : ℚ) + 1 = 1
    norm_num
  rw [b1, e1] at h1
  rw [b2, e2] at h2
  rw [b3, e3] at h3
  have hrank : rankedVideos Char.toLower log10 unstableParams =
      [ { video := { ID := 3, Filename := "x".toList }, score := .fin (264 / 25 + log10 1),
          createdAt := 0 },
        { video := { ID := 2, Filename := "b".toList }, score := .fin (0 + log10 1),
          createdAt := 0 },
        { video := { ID := 1, Filename := "a".toList }, score := .fin (0 + log10 1),
          createdAt := 0 } ] := by
    unfold rankedVideos
    rw [hl]
    simp only [List.map_cons, List.map_nil]
    rw [← hl, h1, h2, h3]
    apply sortScored_triple
    · simp [swapCond, F64.gt, F64.eq]
    · simp [swapCond, F64.gt, F64.eq]
    · simp [swapCond, F64.gt, F64.eq]
  refine ⟨by decide, ?_, ?_⟩
  · rw [hrank]
    rfl
  · rw [SearchRank_of_keywords Char.toLower log10 unstableParams hq hne, hrank]
    rfl


/-! ## Tokens -/

theorem toLower_not_space (c : Char) (hc : IsSpace c = false) :
    IsSpace (Char.toLower c) = false := by
  by_cases h : c.toNat ≥ 65 ∧ c.toNat ≤ 90
  · have hval : ∃ n : Nat, c = Char.ofNat n ∧ 65 ≤ n ∧ n ≤ 90 :=
      ⟨c.toNat, by simp, h.1, h.2⟩
    obtain ⟨n, rfl, h1, h2⟩ := hval
    interval_cases n <;> decide
  · have e : Char.toLower c = c := by
      unfold Char.toLower
      simp only [h, if_false]
    rw [e]
    exact hc

theorem fieldsFrom_tokens :
    ∀ (s cur : List Char), (∀ c ∈ cur, IsSpace c = false) →
      ∀ tok ∈ fieldsFrom cur s, tok ≠ [] ∧ ∀ c ∈ tok, IsSpace c = false
  | [], cur, hcur, tok, htok => by
    unfold fieldsFrom at htok
    cases cur with
    | nil => simp at htok
    | cons a t =>
      simp only [List.isEmpty_cons, Bool.false_eq_true, if_false, List.mem_singleton] at htok
      subst htok
      refine ⟨by simp, ?_⟩
      intro c hc
      exact hcur c (List.mem_reverse.mp hc)
  | r :: rest, cur, hcur, tok, htok => by
    unfold fieldsFrom at htok
    by_cases hr : IsSpace r = true
    · simp only [hr, if_true] at htok
      cases cur with
      | nil =>
        simp only [List.isEmpty_nil, if_true] at htok
        exact fieldsFrom_tokens rest [] (by simp) tok htok
      | cons a t =>
        simp only [List.isEmpty_cons, Bool.false_eq_true, if_false, List.mem_cons] at htok
        rcases htok with e | htok
        · subst e
          refine ⟨by simp, ?_⟩
          intro c hc
          exact hcur c (List.mem_reverse.mp hc)
        · exact fieldsFrom_tokens rest [] (by simp) tok htok
    · simp only [hr, Bool.false_eq_true, if_false] at htok
      apply fieldsFrom_tokens rest (r :: cur) _ tok htok
      intro c hc
      rcases List.mem_cons.mp hc with e | hc'
      · subst e
        simpa using hr
      · exact hcur c hc'

theorem Fields_tokens (s : List Char) :
    ∀ tok ∈ Fields s, tok ≠ [] ∧ ∀ c ∈ tok, IsSpace c = false :=
  fieldsFrom_tokens s [] (by simp)

theorem fieldsFrom_of_no_space :
    ∀ (s cur : List Char), (∀ c ∈ s, IsSpace c = false) →
      fieldsFrom cur s = if (cur.reverse ++ s).isEmpty then [] else [cur.reverse ++ s]
  | [], cur, _ => by
    unfold fieldsFrom
    simp
  | r :: rest, cur, hs => by
    unfold fieldsFrom
    have hr : IsSpace r = false := hs r (List.mem_cons_self r rest)
    simp only [hr, Bool.false_eq_true, if_false]
    rw [fieldsFrom_of_no_space rest (r :: cur) (fun c hc => hs c (List.mem_cons_of_mem r hc))]
    simp

theorem Fields_of_no_space (s : List Char) (hne : s ≠ []) (hs : ∀ c ∈ s, IsSpace c = false) :
    Fields s = [s] := by
  unfold Fields
  rw [fieldsFrom_of_no_space s [] hs]
  simp [hne]

/-! ## The tag text -/

theorem tagsText_foldl (lower : Char → Char) :
    ∀ (tagNames : List (List Char)) (acc : List Char),
      tagNames.foldl (fun acc tag => acc ++ (' ' :: ToLower lower tag)) acc =
        acc ++ tagsText lower tagNames
  | [], acc => by simp [tagsText]
  | t :: ts, acc => by
    unfold tagsText
    rw [List.foldl_cons, List.foldl_cons, tagsText_foldl lower ts (acc ++ ' ' :: ToLower lower t),
      tagsText_foldl lower ts ([] ++ ' ' :: ToLower lower t)]
    simp

theorem tagsText_cons (lower : Char → Char) (t : List Char) (ts : List (List Char)) :
    tagsText lower (t :: ts) = (' ' :: ToLower lower t) ++ tagsText lower ts := by
  have h := tagsText_foldl lower ts ([] ++ ' ' :: ToLower lower t)
  unfold tagsText at h ⊢
  rw [List.foldl_cons, h]
  simp

/-- A word without a blank that occurs in `a ++ ' ' :: b` occurs in `a` or in
`b`. -/
theorem occurs_split_at_blank (w a b : List Char) (hw : ∀ c ∈ w, c ≠ ' ')
    (h : ∃ pre post, a ++ ' ' :: b = pre ++ w ++ post) :
    (∃ pre post, a = pre ++ w ++ post) ∨ (∃ pre post, b = pre ++ w ++ post) := by
  obtain ⟨pre, post, e⟩ := h
  rcases List.append_eq_append_iff.mp e with ⟨a', e1, e2⟩ | ⟨c', e1, _⟩
  · rcases List.append_eq_append_iff.mp e1 with ⟨x, ex1, ex2⟩ | ⟨y, ey1, ey2⟩
    · -- a = pre ++ x, w = x ++ a'
      cases a' with
      | nil =>
        left
        refine ⟨pre, [], ?_⟩
        rw [ex1, ex2]
        simp
      | cons c a'' =>
        exfalso
        simp only [List.cons_append, List.cons.injEq] at e2
        have hc : c ∈ w := by
          rw [ex2]
          simp
        exact hw c hc e2.1.symm
    · -- pre = a ++ y, a' = y ++ w
      cases y with
      | nil =>
        cases w with
        | nil =>
          left
          exact ⟨a, [], by simp⟩
        | cons c w' =>
          exfalso
          rw [ey2] at e2
          simp only [List.nil_append, List.cons_append, List.cons.injEq] at e2
          exact hw c (List.mem_cons_self c w') e2.1.symm
      | cons c y' =>
        right
        rw [ey2] at e2
        simp only [List.cons_append, List.cons.injEq] at e2
        exact ⟨y', post, by rw [e2.2]⟩
  · left
    exact ⟨pre, c', by rw [e1]⟩

theorem occurs_in_tagsText (lower : Char → Char) (w : List Char) (hw : ∀ c ∈ w, c ≠ ' ') :
    ∀ (tagNames : List (List Char)) (a : List Char),
      (∃ pre post, a ++ tagsText lower tagNames = pre ++ w ++ post) →
      (∃ pre post, a = pre ++ w ++ post) ∨
        ∃ tag ∈ tagNames, ∃ pre post, ToLower lower tag = pre ++ w ++ post
  | [], a, h => by
    left
    simpa [tagsText] using h
  | t :: ts, a, h => by
    rw [tagsText_cons, List.cons_append] at h
    rcases occurs_split_at_blank w a _ hw h with h1 | h2
    · exact Or.inl h1
    · right
      rcases occurs_in_tagsText lower w hw ts (ToLower lower t) h2 with h3 | ⟨tag, hm, h4⟩
      · exact ⟨t, List.mem_cons_self t ts, h3⟩
      · exact ⟨tag, List.mem_cons_of_mem t hm, h4⟩

theorem tag_occurs_in_tagsText (lower : Char → Char) (w : List Char) :
    ∀ (tagNames : List (List Char)) (tag : List Char), tag ∈ tagNames →
      (∃ pre post, ToLower lower tag = pre ++ w ++ post) →
      ∃ pre post, tagsText lower tagNames = pre ++ w ++ post
  | [], tag, hm, _ => by cases hm
  | t :: ts, tag, hm, h => by
    rw [tagsText_cons]
    rcases List.mem_cons.mp hm with e | hm'
    · subst e
      obtain ⟨pre, post, e⟩ := h
      exact ⟨' ' :: pre, post ++ tagsText lower ts, by rw [e]; simp⟩
    · obtain ⟨pre, post, e⟩ := tag_occurs_in_tagsText lower w ts tag hm' h
      exact ⟨(' ' :: ToLower lower t) ++ pre, post, by rw [e]; simp⟩

/-- For a non-empty word without a blank the tag text contains the word
exactly when one of the lowercased tags does. -/
theorem Contains_tagsText_iff (lower : Char → Char) (w : List Char) (hne : w ≠ [])
    (hw : ∀ c ∈ w, c ≠ ' ') (tagNames : List (List Char)) :
    Contains (tagsText lower tagNames) w = true ↔
      ∃ tag ∈ tagNames, Contains (ToLower lower tag) w = true := by
  constructor
  · intro h
    have h' := (Contains_iff _ _).mp h
    rcases occurs_in_tagsText lower w hw tagNames [] (by simpa using h') with h1 | ⟨tag, hm, h2⟩
    · exfalso
      obtain ⟨pre, post, e⟩ := h1
      have hl := congrArg List.length e
      simp at hl
      exact hne (List.length_eq_zero.mp (by omega))
    · exact ⟨tag, hm, (Contains_iff _ _).mpr h2⟩
  · rintro ⟨tag, hm, h⟩
    exact (Contains_iff _ _).mpr
      (tag_occurs_in_tagsText lower w tagNames tag hm ((Contains_iff _ _).mp h))

theorem lower_token_no_blank (lower : Char → Char)
    (hlower : ∀ c, IsSpace c = false → lower c ≠ ' ') (query token : List Char)
    (ht : token ∈ Fields query) : ∀ c ∈ ToLower lower token, c ≠ ' ' := by
  intro c hc
  obtain ⟨d, hd, e⟩ := List.mem_map.mp hc
  rw [← e]
  exact hlower d ((Fields_tokens query token ht).2 d hd)

/-- **C27.** For every video and every token of the query, the presence test
of the counting pass (the lowercased token occurs in the lowercased filename or
in the space-joined lowercased tag text) is true if and only if the scorer
registers a hit for the keyword of that token (`CalculateTitleScore` reports a
hit or some lowercased tag contains the keyword); the tag text contains the
token exactly when a single tag does, because a token holds no white space.
(`unicode.ToLower` maps no rune other than a white space to a blank.) -/
theorem C27_presence_iff_hit (lower : Char → Char)
    (hlower : ∀ c, IsSpace c = false → lower c ≠ ' ')
    (query token : List Char) (video : VideoWithTags) (kw : KeywordInfo)
    (ht : token ∈ Fields query) (hk : kw.Word = ToLower lower token) :
    (present lower (ToLower lower token) video = true ↔
      ((CalculateTitleScore lower video.Video.Filename kw).2 = true ∨
        ∃ tag ∈ video.TagNames, Contains (ToLower lower tag) kw.Word = true)) ∧
    (Contains (tagsText lower video.TagNames) (ToLower lower token) = true ↔
      ∃ tag ∈ video.TagNames, Contains (ToLower lower tag) (ToLower lower token) = true) := by
  have hne : ToLower lower token ≠ [] := by
    intro h
    exact (Fields_tokens query token ht).1 (List.map_eq_nil_iff.mp h)
  have htag := Contains_tagsText_iff lower (ToLower lower token) hne
    (lower_token_no_blank lower hlower query token ht) video.TagNames
  refine ⟨?_, htag⟩
  unfold present
  rw [CalculateTitleScore_snd, hk, Bool.or_eq_true, htag]

/-- Witness for C27: the token "sunset" of the query "red sunset" and the
video `taggedSunset`. -/
theorem C27_presence_iff_hit_witness :
    "sunset".toList ∈ Fields "red sunset".toList ∧
    (present Char.toLower (ToLower Char.toLower "sunset".toList) taggedSunset = true ↔
      ((CalculateTitleScore Char.toLower taggedSunset.Video.Filename
          { Word := "sunset".toList, Weight := 1, IsCommon := false, IsRare := false }).2 = true ∨
        ∃ tag ∈ taggedSunset.TagNames,
          Contains (ToLower Char.toLower tag) "sunset".toList = true)) :=
  ⟨by decide,
    (C27_presence_iff_hit Char.toLower
      (fun c hc h => by
        have h2 := toLower_not_space c hc
        rw [h] at h2
        exact absurd h2 (by decide))
      "red sunset".toList "sunset".toList taggedSunset
      { Word := "sunset".toList, Weight := 1, IsCommon := false, IsRare := false }
      (by decide) (by decide)).1⟩

/-! ## Invariants of the keywords -/

theorem keywordAt_weight_values (lower : Char → Char) (wordCount : List Char → Int)
    (totalVideos i : Nat) (word : List Char) :
    (i = 0 → ((keywordAt lower wordCount totalVideos i word).Weight = 1.2 ∨
      (keywordAt lower wordCount totalVideos i word).Weight = 0.96 ∨
      (keywordAt lower wordCount totalVideos i word).Weight = 1.8)) ∧
    (0 < i → ((keywordAt lower wordCount totalVideos i word).Weight = 1.0 ∨
      (keywordAt lower wordCount totalVideos i word).Weight = 0.8 ∨
      (keywordAt lower wordCount totalVideos i word).Weight = 1.5)) := by
  constructor
  · intro hi
    unfold keywordAt
    simp only [hi, if_true]
    split_ifs <;> norm_num
  · intro hi
    have hi' : ¬ i = 0 := by omega
    unfold keywordAt
    simp only [hi', if_false]
    split_ifs <;> norm_num

theorem CalculateTagScore_pos_iff (lower : Char → Char) (tagNames : List (List Char))
    (kw : KeywordInfo) (hw : 0 < kw.Weight) :
    0 < CalculateTagScore lower tagNames kw ↔
      ∃ tag ∈ tagNames, Contains (ToLower lower tag) kw.Word = true := by
  rcases tag_hit_or_not lower kw tagNames with h | h
  · rw [CalculateTagScore_of_hit lower kw tagNames h]
    have h5 : (0 : ℚ) < 5.0 * kw.Weight := by
      have : (0 : ℚ) < 5.0 := by norm_num
      exact mul_pos this hw
    exact ⟨fun _ => h, fun _ => h5⟩
  · rw [CalculateTagScore_of_no_hit lower kw tagNames h]
    constructor
    · intro h0
      exact absurd h0 (lt_irrefl 0)
    · rintro ⟨tag, hm, hc⟩
      rw [h tag hm] at hc
      cases hc

/-- **C28.** Every `KeywordInfo` returned by `CalculateKeywordWeights` has a
non-empty `Word` without white space and a strictly positive `Weight`, one of
`1.2`, `0.96`, `1.8` for the first token and one of `1.0`, `0.8`, `1.5` for a
later token; so in `SearchRank` the test `tagScore > 0` is true exactly when
some tag contains the keyword, and the double-hit bonus is added exactly when
the keyword hits both the filename and a tag.  (`unicode.ToLower` maps no rune
other than a white space to a white space.) -/
theorem C28_keyword_invariants (lower : Char → Char)
    (hlower : ∀ c, IsSpace c = false → IsSpace (lower c) = false)
    (query : List Char) (videoList : List VideoWithTags) (i : Nat) (kw : KeywordInfo)
    (hk : (CalculateKeywordWeights lower query videoList)[i]? = some kw) :
    kw.Word ≠ [] ∧ (∀ c ∈ kw.Word, IsSpace c = false) ∧ 0 < kw.Weight ∧
    (i = 0 → (kw.Weight = 1.2 ∨ kw.Weight = 0.96 ∨ kw.Weight = 1.8)) ∧
    (0 < i → (kw.Weight = 1.0 ∨ kw.Weight = 0.8 ∨ kw.Weight = 1.5)) ∧
    (∀ tagNames : List (List Char),
      0 < CalculateTagScore lower tagNames kw ↔
        ∃ tag ∈ tagNames, Contains (ToLower lower tag) kw.Word = true) ∧
    (∀ (video : VideoWithTags) (baseScore : ℚ),
      addKeyword lower video baseScore kw =
        baseScore + (CalculateTitleScore lower video.Video.Filename kw).1 +
          CalculateTagScore lower video.TagNames kw +
          (if Contains (ToLower lower video.Video.Filename) kw.Word = true ∧
              (∃ tag ∈ video.TagNames, Contains (ToLower lower tag) kw.Word = true)
            then 3.0 * kw.Weight else 0)) := by
  rw [CalculateKeywordWeights_eq, List.getElem?_mapIdx] at hk
  cases ht : (Fields query)[i]? with
  | none => simp [ht] at hk
  | some token =>
    simp only [ht, Option.map_some', Option.some.injEq] at hk
    have htok := Fields_tokens query token (List.mem_iff_getElem?.mpr ⟨i, ht⟩)
    have hword : kw.Word = ToLower lower token := by
      rw [← hk]
      exact keywordAt_Word lower _ _ i token
    have hpos : 0 < kw.Weight := by
      rw [← hk]
      exact keywordAt_weight_pos lower _ _ i token
    have hvals := keywordAt_weight_values lower
      (countWords lower (Fields query) videoList) videoList.length i token
    rw [hk] at hvals
    refine ⟨?_, ?_, hpos, hvals.1, hvals.2,
      fun tagNames => CalculateTagScore_pos_iff lower tagNames kw hpos, ?_⟩
    · rw [hword]
      intro h
      exact htok.1 (List.map_eq_nil_iff.mp h)
    · rw [hword]
      intro c hc
      obtain ⟨d, hd, e⟩ := List.mem_map.mp hc
      rw [← e]
      exact hlower d (htok.2 d hd)
    · intro video baseScore
      rw [addKeyword_eq lower video baseScore kw hpos]
      unfold keywordContribution
      ring

/-- Witness for C28: the keyword of the token "sunset" in the sunset scenario. -/
theorem C28_keyword_invariants_witness :
    (CalculateKeywordWeights Char.toLower sunsetParams.Query sunsetParams.VideoList)[0]? =
      some { Word := "sunset".toList, Weight := 24 / 25, IsCommon := true, IsRare := false } ∧
    ("sunset".toList ≠ [] ∧ (∀ c ∈ "sunset".toList, IsSpace c = false) ∧
      (0 : ℚ) < 24 / 25) :=
  ⟨by decide!,
    ⟨(C28_keyword_invariants Char.toLower toLower_not_space sunsetParams.Query
        sunsetParams.VideoList 0
        { Word := "sunset".toList, Weight := 24 / 25, IsCommon := true, IsRare := false }
        (by decide!)).1,
      (C28_keyword_invariants Char.toLower toLower_not_space sunsetParams.Query
        sunsetParams.VideoList 0
        { Word := "sunset".toList, Weight := 24 / 25, IsCommon := true, IsRare := false }
        (by decide!)).2.1,
      (C28_keyword_invariants Char.toLower toLower_not_space sunsetParams.Query
        sunsetParams.VideoList 0
        { Word := "sunset".toList, Weight := 24 / 25, IsCommon := true, IsRare := false }
        (by decide!)).2.2.1⟩⟩

/-! ## The keyword filter -/

theorem digit_toNat (c : Char) (h : '0' ≤ c ∧ c ≤ '9') : 48 ≤ c.toNat ∧ c.toNat ≤ 57 :=
  ⟨h.1, h.2⟩

theorem digit_not_space (c : Char) (h : '0' ≤ c ∧ c ≤ '9') : IsSpace c = false := by
  have hn := digit_toNat c h
  unfold IsSpace
  simp only [Bool.or_eq_false_iff, decide_eq_false_iff_not, Bool.and_eq_false_imp,
    decide_eq_true_eq]
  omega

theorem digitsFrom_eq :
    ∀ (s : List Char) (acc : Nat), (∀ c ∈ s, '0' ≤ c ∧ c ≤ '9') →
      digitsFrom acc s = some (s.foldl (fun n c => n * 10 + (c.toNat - '0'.toNat)) acc)
  | [], acc, _ => rfl
  | c :: rest, acc, h => by
    unfold digitsFrom
    have hc := h c (List.mem_cons_self c rest)
    simp only [hc, and_self, if_true, List.foldl_cons]
    exact digitsFrom_eq rest _ (fun d hd => h d (List.mem_cons_of_mem c hd))

theorem ParseUint32_of_digits (s : List Char) (hne : s ≠ [])
    (hd : ∀ c ∈ s, '0' ≤ c ∧ c ≤ '9') :
    ParseUint32 s =
      if decimalValue s ≤ 2 ^ 32 - 1 then (decimalValue s, true) else (2 ^ 32 - 1, false) := by
  unfold ParseUint32
  have he : s.isEmpty = false := by
    cases s with
    | nil => exact absurd rfl hne
    | cons a t => rfl
  rw [he, digitsFrom_eq s 0 hd]
  rfl

/-- A keyword of decimal digits that denotes a number from `1` to `2^32 - 1`
selects the ID branch with that number; one that denotes `0` selects the
substring branch. -/
theorem keywordFilter_of_digits (keyword : List Char) (hne : keyword ≠ [])
    (hd : ∀ c ∈ keyword, '0' ≤ c ∧ c ≤ '9') :
    ((1 ≤ decimalValue keyword ∧ decimalValue keyword ≤ 2 ^ 32 - 1) →
      keywordFilter keyword = .byID (decimalValue keyword)) ∧
    (decimalValue keyword = 0 → keywordFilter keyword = .bySubstring [keyword]) := by
  have hf : Fields keyword = [keyword] :=
    Fields_of_no_space keyword hne (fun c hc => digit_not_space c (hd c hc))
  have hp := ParseUint32_of_digits keyword hne hd
  constructor
  · rintro ⟨h1, h2⟩
    unfold keywordFilter
    simp only [hne, ne_eq, not_false_eq_true, if_true, hf, hp, h2, List.length_singleton,
      true_and]
    have : decimalValue keyword > 0 := h1
    simp [this]
  · intro h0
    unfold keywordFilter
    simp only [hne, ne_eq, not_false_eq_true, if_true, hf, hp, h0]
    simp

/-- **C24 (defect).** A keyword that consists solely of decimal digits is not
always matched as the ID it denotes.  The keyword "0" denotes `0` and is
searched as text, by filename/tag substring, and not by `id = 0`.  The keyword
"99999999999" denotes `99999999999` and is matched as the ID `4294967295`, the
value `strconv.ParseUint` returns together with the range error that the
keyword block discards. -/
theorem C24_digits_keyword_not_by_id :
    (∀ c ∈ "0".toList, '0' ≤ c ∧ c ≤ '9') ∧
    decimalValue "0".toList = 0 ∧
    keywordFilter "0".toList = .bySubstring ["0".toList] ∧
    keywordFilter "0".toList ≠ .byID (decimalValue "0".toList) ∧
    (∀ c ∈ "99999999999".toList, '0' ≤ c ∧ c ≤ '9') ∧
    decimalValue "99999999999".toList = 99999999999 ∧
    keywordFilter "99999999999".toList = .byID 4294967295 ∧
    keywordFilter "99999999999".toList ≠ .byID (decimalValue "99999999999".toList) := by
  decide

/-! ## The path check of `ListLibraryFiles` -/

theorem byteLen_append (a b : List Char) : byteLen (a ++ b) = byteLen a + byteLen b := by
  simp [byteLen]

/-- The path check passes exactly when the absolute library path is a prefix,
as a string, of the absolute request path. -/
theorem pathCheckPasses_eq (abs : List Char → List Char) (libraryPath path : List Char) :
    pathCheckPasses abs libraryPath path = (abs libraryPath).isPrefixOf (abs path) := by
  unfold pathCheckPasses
  cases hp : (abs libraryPath).isPrefixOf (abs path) with
  | false =>
    simp only [hp, Bool.not_false, Bool.or_true, Bool.not_true]
  | true =>
    obtain ⟨post, e⟩ := (isPrefixOf_iff_append _ _).mp hp
    have hlen : ¬ byteLen (abs path) < byteLen (abs libraryPath) := by
      rw [e, byteLen_append]
      omega
    simp only [hp, hlen, decide_False, Bool.not_true, Bool.or_false, Bool.not_false]

/-- **C25 (the code at the failing input).** With the library path
"/data/lib" the request path "/data/library2/secret", which is neither the
library directory nor inside it, passes the path check: the check compares
strings, and "/data/lib" is a prefix of "/data/library2/secret" (both paths
are absolute and clean, so `filepath.Abs` returns them unchanged). -/
theorem C25_path_check_accepts_sibling :
    insideDir "/data/lib".toList "/data/library2/secret".toList = false ∧
    pathCheckPasses (fun p => p) "/data/lib".toList "/data/library2/secret".toList = true ∧
    insideDir "/data/lib".toList "/data/lib/clips".toList = true ∧
    pathCheckPasses (fun p => p) "/data/lib".toList "/data/lib/clips".toList = true ∧
    pathCheckPasses (fun p => p) "/data/lib".toList "/data/other".toList = false := by
  decide

/-! ## Login failures -/

/-- **C26.** `recordLoginFailure(ip)` at time `t` (every reading of the clock
during the call gives `t`): if `ip` has no record, a record with `Count = 1`
and `FirstFail = LastFail = t` is created; if `ip` has a record whose
`LastFail` is more than 30 minutes before `t`, `Count` is reset to 1 and
`FirstFail` set to `t`; otherwise `Count` is incremented by exactly 1 and
`FirstFail` is unchanged; in every case `LastFail` becomes `t`, the records of
all other IPs are unchanged, and if every stored record had `Count ≥ 1` before
the call, every stored record has `Count ≥ 1` after it. -/
theorem C26_recordLoginFailure (loginAttempts : List Char → Option LoginAttempt)
    (ip : List Char) (now : Nat → Time) (t : Time) (hnow : ∀ k, now k = t) :
    (loginAttempts ip = none →
      recordLoginFailure loginAttempts ip now ip =
        some { Count := 1, FirstFail := t, LastFail := t }) ∧
    (∀ attempt, loginAttempts ip = some attempt →
      Time.Sub t attempt.LastFail > thirtyMinutes →
      recordLoginFailure loginAttempts ip now ip =
        some { Count := 1, FirstFail := t, LastFail := t }) ∧
    (∀ attempt, loginAttempts ip = some attempt →
      ¬ Time.Sub t attempt.LastFail > thirtyMinutes →
      recordLoginFailure loginAttempts ip now ip =
        some { Count := attempt.Count + 1, FirstFail := attempt.FirstFail, LastFail := t }) ∧
    (∀ other, other ≠ ip →
      recordLoginFailure loginAttempts ip now other = loginAttempts other) ∧
    ((∀ key attempt, loginAttempts key = some attempt → 1 ≤ attempt.Count) →
      ∀ key attempt, recordLoginFailure loginAttempts ip now key = some attempt →
        1 ≤ attempt.Count) := by
  have hother : ∀ other, other ≠ ip →
      recordLoginFailure loginAttempts ip now other = loginAttempts other := by
    intro other hne
    unfold recordLoginFailure
    cases loginAttempts ip with
    | none => simp [mapSet, hne]
    | some attempt =>
      simp only
      split_ifs <;> simp [mapSet, hne]
  have hnone : loginAttempts ip = none →
      recordLoginFailure loginAttempts ip now ip =
        some { Count := 1, FirstFail := t, LastFail := t } := by
    intro h
    unfold recordLoginFailure
    simp [h, mapSet, hnow]
  have hreset : ∀ attempt, loginAttempts ip = some attempt →
      Time.Sub t attempt.LastFail > thirtyMinutes →
      recordLoginFailure loginAttempts ip now ip =
        some { Count := 1, FirstFail := t, LastFail := t } := by
    intro attempt h hgt
    unfold recordLoginFailure
    simp [h, mapSet, hnow, hgt]
  have hinc : ∀ attempt, loginAttempts ip = some attempt →
      ¬ Time.Sub t attempt.LastFail > thirtyMinutes →
      recordLoginFailure loginAttempts ip now ip =
        some { Count := attempt.Count + 1, FirstFail := attempt.FirstFail, LastFail := t } := by
    intro attempt h hle
    unfold recordLoginFailure
    simp only [h, hnow, hle, if_false, mapSet, if_true]
  refine ⟨hnone, hreset, hinc, hother, ?_⟩
  intro hinv key attempt hk
  by_cases hkey : key = ip
  · subst hkey
    cases hold : loginAttempts key with
    | none =>
      rw [hnone hold] at hk
      cases hk
      exact le_refl _
    | some old =>
      by_cases hgt : Time.Sub t old.LastFail > thirtyMinutes
      · rw [hreset old hold hgt] at hk
        cases hk
        exact le_refl _
      · rw [hinc old hold hgt] at hk
        cases hk
        have := hinv key old hold
        show 1 ≤ old.Count + 1
        omega
  · rw [hother key hkey] at hk
    exact hinv key attempt hk

/-- Witness for C26: a first failure of "10.0.0.1" on the empty table at the
instant 100 s. -/
theorem C26_recordLoginFailure_witness :
    (∀ k : Nat, (fun _ : Nat => ({ sec := 100 } : Time)) k = { sec := 100 }) ∧
    recordLoginFailure (fun _ => none) "10.0.0.1".toList (fun _ => { sec := 100 })
        "10.0.0.1".toList =
      some { Count := 1, FirstFail := { sec := 100 }, LastFail := { sec := 100 } } :=
  ⟨fun _ => rfl,
    (C26_recordLoginFailure (fun _ => none) "10.0.0.1".toList (fun _ => { sec := 100 })
      { sec := 100 } (fun _ => rfl)).1 rfl⟩

/-! ## The `NoRoute` handler -/

/-- **C29 (the code at the failing input).** For the request path "/login"
(6 bytes, more than 1) the test evaluates `path[:7]` beyond the end of the
string and panics; so does `path[:8]` for the 7-byte path "/abcdef".  Paths
of at least 8 bytes are classified: "/assets/app.js" is a static asset,
"/videos/12" and "/" go to the SPA fallback. -/
theorem C29_noRoute_slice_panics :
    (utf8Bytes "/login".toList).length = 6 ∧
    noRouteClass "/login".toList = none ∧
    (utf8Bytes "/abcdef".toList).length = 7 ∧
    noRouteClass "/abcdef".toList = none ∧
    noRouteClass "/assets/app.js".toList = some .staticAsset ∧
    noRouteClass "/videos/12".toList = some .spaFallback ∧
    noRouteClass "/".toList = some .spaFallback := by
  decide

/-- Every request path of 2 to 6 bytes makes the test panic. -/
theorem noRouteClass_short (path : List Char) (h1 : 1 < (utf8Bytes path).length)
    (h2 : (utf8Bytes path).length < 7) : noRouteClass path = none := by
  unfold noRouteClass sliceTo
  have h7 : ¬ 7 ≤ (utf8Bytes path).length := by omega
  simp [h1, h7]

/-! ## `total_pages` in `GetVideosInFolder` -/

/-- **C30 (the code at the failing input).** `parseInt` reads only the decimal
digits of its argument ("1a2" gives 12) and gives 0 for "abc", for "0" and for
the empty string; for these values of `page_size` the computation of
`total_pages` divides by zero and panics, whatever the total.  For
`page_size=24` and 50 videos it gives 3. -/
theorem C30_total_pages_divides_by_zero (total : Int) :
    parseInt "1a2".toList = 12 ∧
    parseInt "abc".toList = 0 ∧ parseInt "0".toList = 0 ∧ parseInt [] = 0 ∧
    totalPages total "abc".toList = none ∧
    totalPages total "0".toList = none ∧
    totalPages total [] = none ∧
    totalPages 50 "24".toList = some 3 := by
  have h1 : parseInt "abc".toList = 0 := by decide
  have h2 : parseInt "0".toList = 0 := by decide
  have h3 : parseInt [] = 0 := by decide
  refine ⟨by decide, h1, h2, h3, ?_, ?_, ?_, by decide⟩
  · unfold totalPages
    rw [if_pos h1]
  · unfold totalPages
    rw [if_pos h2]
  · unfold totalPages
    rw [if_pos h3]

end HideVideo
